import Mathlib

/-! Pre-order iterator of the sparse Merkle tree (`iterator.go`).

A shallow embedding of the stack-based iterator of the `smt` package and the
properties of its traversal.  Byte slices are lists of naturals, Go `error`
values are an inductive type, and the injected collaborators (tree hasher,
node store, value store) are fields of `SparseMerkleTree`.
-/

set_option autoImplicit false

namespace smt

/-! ## Data model -/

/-- Byte slices (`[]byte`); `bytes.Equal` is list equality. -/
abbrev Bytes := List Nat

/-- Go `error` values that can reach the iterator: the two package-level
sentinels of `iterator.go` and whatever else an injected store returns. -/
inductive Error where
  | ErrIteratorEnd
  | ErrNodeNotFound
  | storeFailure (code : Nat)
  deriving DecidableEq, Repr

deriving instance DecidableEq for Except

/-- The part of `treeHasher` the iterator calls.  Its methods are not among the
sources of this development, so they are taken as parameters. -/
structure treeHasher where
  isLeaf : Bytes → Bool
  parseNode : Bytes → Bytes × Bytes
  parseLeaf : Bytes → Bytes × Bytes
  zeroValue : Bytes

/-- The fields of `SparseMerkleTree` read by the iterator.  `nodes` and `values`
are the `Get` methods of the two injected map stores (`([]byte, error)`). -/
structure SparseMerkleTree where
  th : treeHasher
  nodes : Bytes → Except Error Bytes
  values : Bytes → Except Error Bytes
  root : Bytes

/-- One traversal frame (`iteratorState`). -/
structure iteratorState where
  hash : Bytes
  rawNode : Bytes
  leftVisited : Bool
  rightVisited : Bool
  deriving DecidableEq, Repr

/-- The mutable part of `iterator`: the stack in Go slice order (bottom first,
top last) and the stored terminal condition (`none` is `nil`).  The `trie`
pointer is never reassigned and is passed alongside as a `SparseMerkleTree`. -/
structure iterator where
  stack : List iteratorState
  err : Option Error
  deriving DecidableEq, Repr

/-- What `NewIterator` hands out: empty stack, no terminal condition. -/
def fresh : iterator := { stack := [], err := none }

/-! ## Operations -/

/-- Outcome of `init`: the root frame, or the node store's error unchanged. -/
def init (t : SparseMerkleTree) : Except Error iteratorState :=
  match t.nodes t.root with
  | .error err => .error err
  | .ok node => .ok { hash := t.root, rawNode := node, leftVisited := false, rightVisited := false }

/-- Result of `nextChild`: the frame passed in, as the call leaves it (it is
mutated through its pointer), and the Go return values `(child, pop, err)`,
an error standing for `(nil, false, err)`. -/
structure childResult where
  parent : iteratorState
  out : Except Error (iteratorState × Bool)
  deriving DecidableEq

/-- Second half of `nextChild` (the `if !nodeState.rightVisited` block and the
final `return nodeState, true, nil`).  The check in this block is of the right
child, although the source's comment on it still reads "Check for empty left
subtree". -/
def nextChildRight (t : SparseMerkleTree) (rightChild : Bytes) (nodeState : iteratorState) :
    childResult :=
  if !nodeState.rightVisited then
    if !(t.th.zeroValue == rightChild) then
      match t.nodes rightChild with
      | .error _ => { parent := nodeState, out := .error .ErrNodeNotFound }
      | .ok rightNode =>
        { parent := { nodeState with rightVisited := true },
          out := .ok ({ hash := rightChild, rawNode := rightNode,
                        leftVisited := false, rightVisited := false }, false) }
    else
      { parent := { nodeState with rightVisited := true },
        out := .ok ({ nodeState with rightVisited := true }, true) }
  else
    { parent := nodeState, out := .ok (nodeState, true) }

/-- Next child of a frame in pre-order (`iterator.nextChild`). -/
def nextChild (t : SparseMerkleTree) (nodeState : iteratorState) : childResult :=
  if t.th.isLeaf nodeState.rawNode then
    { parent := nodeState, out := .ok (nodeState, true) }
  else
    let children := t.th.parseNode nodeState.rawNode
    let leftChild := children.1
    let rightChild := children.2
    if !nodeState.leftVisited then
      if !(t.th.zeroValue == leftChild) then
        match t.nodes leftChild with
        | .error _ => { parent := nodeState, out := .error .ErrNodeNotFound }
        | .ok leftNode =>
          { parent := { nodeState with leftVisited := true },
            out := .ok ({ hash := leftChild, rawNode := leftNode,
                          leftVisited := false, rightVisited := false }, false) }
      else
        nextChildRight t rightChild { nodeState with leftVisited := true }
    else
      nextChildRight t rightChild nodeState

/-- Removal of the top frame (`iterator.pop`). -/
def pop (stack : List iteratorState) : List iteratorState := stack.dropLast

/-- Append on top (`iterator.push`). -/
def push (stack : List iteratorState) (node : iteratorState) : List iteratorState :=
  stack ++ [node]

/-- The loop `for len(i.stack) > 0 { ... }` of `next`.  Every round either
returns or pops one frame, so `len(i.stack)` rounds are enough; `fuel` counts
the rounds still allowed.  The result is the stack as the loop leaves it and
the pair `(*iteratorState, error)` that `next` returns. -/
def forLoop (t : SparseMerkleTree) :
    Nat → List iteratorState → List iteratorState × Except Error iteratorState
  | 0, stack => (stack, .error .ErrIteratorEnd)
  | fuel + 1, stack =>
    match stack.getLast? with
    | none => (stack, .error .ErrIteratorEnd)
    | some parent =>
      let r := nextChild t parent
      let stack1 := stack.dropLast ++ [r.parent]
      match r.out with
      | .error err => (stack1, .error err)
      | .ok (child, shouldPop) =>
        if !shouldPop then (stack1, .ok child)
        else forLoop t fuel (pop stack1)

/-- The method `iterator.next`. -/
def next (t : SparseMerkleTree) (descend : Bool) (stack : List iteratorState) :
    List iteratorState × Except Error iteratorState :=
  if stack.length = 0 then
    match init t with
    | .error err => (stack, .error err)
    | .ok state => (stack, .ok state)
  else
    let stack1 := if !descend then pop stack else stack
    forLoop t stack1.length stack1

/-- One step of the iterator (`iterator.Next`): the returned flag and the
iterator afterwards. -/
def Next (t : SparseMerkleTree) (i : iterator) : Bool × iterator :=
  match i.err with
  | some _ => (false, i)
  | none =>
    match next t true i.stack with
    | (stack1, .error err) => (false, { stack := stack1, err := some err })
    | (stack1, .ok node) => (true, { stack := push stack1 node, err := none })

/-- Accessor `Leaf`; `none` is the out-of-range panic of `i.stack[len(i.stack)-1]`. -/
def Leaf (t : SparseMerkleTree) (i : iterator) : Option Bool :=
  i.stack.getLast?.map fun node => t.th.isLeaf node.rawNode

/-- Accessor `NodeBlob`. -/
def NodeBlob (i : iterator) : Option Bytes :=
  i.stack.getLast?.map fun node => node.rawNode

/-- Accessor `LeafKey`. -/
def LeafKey (t : SparseMerkleTree) (i : iterator) : Option Bytes :=
  i.stack.getLast?.map fun leaf => (t.th.parseLeaf leaf.rawNode).1

/-- Accessor `LeafValue`. -/
def LeafValue (t : SparseMerkleTree) (i : iterator) : Option (Except Error Bytes) :=
  i.stack.getLast?.map fun leaf => t.values (t.th.parseLeaf leaf.rawNode).1

/-! ## Driving the iterator -/

/-- State after `n` consecutive calls of `Next`. -/
def NextN (t : SparseMerkleTree) : Nat → iterator → iterator
  | 0, i => i
  | n + 1, i => NextN t n (Next t i).2

/-- The flags returned by `n` consecutive calls of `Next`. -/
def flags (t : SparseMerkleTree) : Nat → iterator → List Bool
  | 0, _ => []
  | n + 1, i => (Next t i).1 :: flags t n (Next t i).2

/-- The loop `for it.Next() { ... }` cut off after `fuel` calls of `Next`: the
iterator as the loop body sees it on each round, in order. -/
def visited (t : SparseMerkleTree) : Nat → iterator → List iterator
  | 0, _ => []
  | fuel + 1, i =>
    if (Next t i).1 then (Next t i).2 :: visited t fuel (Next t i).2 else []

/-- The loop of `TestIterator_LeafNodes`, cut off after `fuel` calls of `Next`:
`for it.Next() { if it.Leaf() { value, err := it.LeafValue(); ... it.LeafKey() ... } }`,
collecting the pair of `LeafKey()` and `LeafValue()` on every round where
`Leaf()` is true. -/
def collectLeaves (t : SparseMerkleTree) (fuel : Nat) (i : iterator) :
    List (Option Bytes × Option (Except Error Bytes)) :=
  ((visited t fuel i).filter fun it => Leaf t it == some true).map
    fun it => (LeafKey t it, LeafValue t it)

/-! ## Stored trees -/

/-- Shape of a stored tree: `empty` is a zero-valued child reference, the other
two carry the blob kept in the node store. -/
inductive Tree where
  | empty
  | leaf (raw : Bytes)
  | inner (raw : Bytes) (left right : Tree)
  deriving DecidableEq, Repr

namespace Tree

/-- Blob of the topmost node, if there is one. -/
def raw? : Tree → Option Bytes
  | empty => none
  | leaf raw => some raw
  | inner raw _ _ => some raw

/-- Pre-order listing of the node blobs: node, left subtree, right subtree. -/
def preorder : Tree → List Bytes
  | empty => []
  | leaf raw => [raw]
  | inner raw l r => raw :: (preorder l ++ preorder r)

/-- Number of nodes, leaves and inner nodes together. -/
def size : Tree → Nat
  | empty => 0
  | leaf _ => 1
  | inner _ l r => 1 + size l + size r

/-- Blobs of the leaves, in pre-order. -/
def leaves : Tree → List Bytes
  | empty => []
  | leaf raw => [raw]
  | inner _ l r => leaves l ++ leaves r

/-- Height counted in nodes: the number of nodes on the longest path from the
top node downwards (a tree whose deepest node sits at depth `d` has height
`d + 1`). -/
def height : Tree → Nat
  | empty => 0
  | leaf _ => 1
  | inner _ l r => 1 + max (height l) (height r)

end Tree

/-- A child reference `ref` stands for the tree `tr`: the zero value for the
empty tree, otherwise a non-zero digest under which the node store holds the
top blob of `tr`. -/
def Link (t : SparseMerkleTree) (tr : Tree) (ref : Bytes) : Prop :=
  match tr.raw? with
  | none => ref = t.th.zeroValue
  | some raw => ref ≠ t.th.zeroValue ∧ t.nodes ref = .ok raw

/-- Every blob of the tree is a leaf per `isLeaf`, or an inner node whose
`parseNode` children are linked to its two subtrees. -/
def WellFormed (t : SparseMerkleTree) : Tree → Prop
  | .empty => True
  | .leaf raw => t.th.isLeaf raw = true
  | .inner raw l r =>
    t.th.isLeaf raw = false ∧
    Link t l (t.th.parseNode raw).1 ∧ Link t r (t.th.parseNode raw).2 ∧
    WellFormed t l ∧ WellFormed t r

/-- The tree `tr` is stored under the root of `t`. -/
def StoredUnderRoot (t : SparseMerkleTree) (tr : Tree) : Prop :=
  WellFormed t tr ∧ ∃ raw, tr.raw? = some raw ∧ t.nodes t.root = .ok raw

/-- Digests reachable from the root through non-zero child references of
stored inner nodes. -/
inductive Reach (t : SparseMerkleTree) : Bytes → Prop
  | root : Reach t t.root
  | left {d raw : Bytes} : Reach t d → t.nodes d = .ok raw → t.th.isLeaf raw = false →
      (t.th.parseNode raw).1 ≠ t.th.zeroValue → Reach t (t.th.parseNode raw).1
  | right {d raw : Bytes} : Reach t d → t.nodes d = .ok raw → t.th.isLeaf raw = false →
      (t.th.parseNode raw).2 ≠ t.th.zeroValue → Reach t (t.th.parseNode raw).2

/-- A frame for a reachable digest holding the blob stored under it. -/
def Fetched (t : SparseMerkleTree) (f : iteratorState) : Prop :=
  Reach t f.hash ∧ t.nodes f.hash = .ok f.rawNode

/-- A frame the loop pops: a leaf, or an inner node with nothing left to descend into. -/
def Done (t : SparseMerkleTree) (f : iteratorState) : Prop :=
  ∃ c, (nextChild t f).out = .ok (c, true)

/-- Consecutive calls of `Next` from the first iterator all return true, pass
through the listed iterators and end in the last one. -/
inductive Steps (t : SparseMerkleTree) : iterator → List iterator → iterator → Prop
  | nil (i : iterator) : Steps t i [] i
  | cons {i i1 i2 : iterator} {l : List iterator} :
      Next t i = (true, i1) → Steps t i1 l i2 → Steps t i (i1 :: l) i2

/-- The frame `c` sits directly above the frame `p` on a well-shaped stack:
`p` is an inner node whose left child has been dealt with, and `c` holds the
non-zero child of `p` that was pushed last: the left one while `rightVisited`
is unset, the right one once it is set. -/
def ChainLink (t : SparseMerkleTree) (p c : iteratorState) : Prop :=
  t.th.isLeaf p.rawNode = false ∧ p.leftVisited = true ∧ c.hash ≠ t.th.zeroValue ∧
  (p.rightVisited = false → c.hash = (t.th.parseNode p.rawNode).1) ∧
  (p.rightVisited = true → c.hash = (t.th.parseNode p.rawNode).2)

/-- Every frame is linked to the one above it (the list is in Go slice order,
bottom first). -/
def Linked (t : SparseMerkleTree) : List iteratorState → Prop
  | [] => True
  | [_] => True
  | p :: c :: rest => ChainLink t p c ∧ Linked t (c :: rest)

/-- Shape of the stack: a chain from the root to the current node.  The bottom
frame is the root, every frame holds the blob stored under its hash and has
`rightVisited` set only after `leftVisited`, and consecutive frames are linked. -/
def Shape (t : SparseMerkleTree) (stack : List iteratorState) : Prop :=
  (∀ f, stack.head? = some f → f.hash = t.root) ∧
  (∀ f ∈ stack, t.nodes f.hash = .ok f.rawNode ∧
    (f.rightVisited = true → f.leftVisited = true)) ∧
  Linked t stack

/-! ## Stored trees with dangling references -/

/-- Shape of a stored tree in which child references may dangle: `empty` is a
zero-valued reference, `missing` a non-zero reference without an entry in the
node store, the other two carry the blob kept in the node store. -/
inductive PTree where
  | empty
  | missing
  | leaf (raw : Bytes)
  | inner (raw : Bytes) (left right : PTree)
  deriving DecidableEq, Repr

namespace PTree

/-- Blob of the topmost node, if it is stored. -/
def raw? : PTree → Option Bytes
  | empty => none
  | missing => none
  | leaf raw => some raw
  | inner raw _ _ => some raw

/-- Pre-order listing with the missing nodes marked: `some raw` for a stored
node, `none` for a dangling reference. -/
def marked : PTree → List (Option Bytes)
  | empty => []
  | missing => [none]
  | leaf raw => [some raw]
  | inner raw l r => some raw :: (marked l ++ marked r)

/-- The blobs that precede the first missing node in pre-order, and whether
there is a missing node at all. -/
def before : PTree → List Bytes × Bool
  | empty => ([], false)
  | missing => ([], true)
  | leaf raw => ([raw], false)
  | inner raw l r =>
    if (before l).2 then (raw :: (before l).1, true)
    else (raw :: ((before l).1 ++ (before r).1), (before r).2)

end PTree

/-- A child reference `ref` stands for the partial tree `tr`. -/
def LinkP (t : SparseMerkleTree) : PTree → Bytes → Prop
  | .empty, ref => ref = t.th.zeroValue
  | .missing, ref => ref ≠ t.th.zeroValue ∧ ∃ e, t.nodes ref = .error e
  | .leaf raw, ref => ref ≠ t.th.zeroValue ∧ t.nodes ref = .ok raw
  | .inner raw _ _, ref => ref ≠ t.th.zeroValue ∧ t.nodes ref = .ok raw

/-- Well-formedness of a partial tree: as `WellFormed`, with dangling
references allowed among the children. -/
def WellFormedP (t : SparseMerkleTree) : PTree → Prop
  | .empty => True
  | .missing => True
  | .leaf raw => t.th.isLeaf raw = true
  | .inner raw l r =>
    t.th.isLeaf raw = false ∧
    LinkP t l (t.th.parseNode raw).1 ∧ LinkP t r (t.th.parseNode raw).2 ∧
    WellFormedP t l ∧ WellFormedP t r

/-- The partial tree `tr` is stored under the root of `t`; the root node itself
is present. -/
def StoredUnderRootP (t : SparseMerkleTree) (tr : PTree) : Prop :=
  WellFormedP t tr ∧ ∃ raw, tr.raw? = some raw ∧ t.nodes t.root = .ok raw

/-- How the steps that follow `start` deal with one child slot holding `tr`:
they show the blobs of `tr` that precede its first missing node; then
the next call fails with `ErrNodeNotFound` if `tr` has a missing node, and
otherwise only finished frames are left above `rest`. -/
def SlotRun (t : SparseMerkleTree) (rest : List iteratorState) (start : iterator)
    (tr : PTree) : Prop :=
  ∃ l last, Steps t start l last ∧ l.map NodeBlob = tr.before.1.map some ∧
    (tr.before.2 = true → ∃ stk, Next t last = (false, { stack := stk, err := some .ErrNodeNotFound })) ∧
    (tr.before.2 = false → ∃ done, last = { stack := rest ++ done, err := none } ∧
      done ≠ [] ∧ ∀ f ∈ done, Done t f)

/-- The traversal of a stored node of a partial tree from its freshly pushed frame. -/
def Visits (t : SparseMerkleTree) (tr : PTree) : Prop :=
  ∀ raw, tr.raw? = some raw → ∀ (hash : Bytes) (rest : List iteratorState),
    ∃ l last, Steps t { stack := rest ++ [⟨hash, raw, false, false⟩], err := none } l last ∧
      some raw :: l.map NodeBlob = tr.before.1.map some ∧
      (tr.before.2 = true →
        ∃ stk, Next t last = (false, { stack := stk, err := some .ErrNodeNotFound })) ∧
      (tr.before.2 = false → ∃ done, last = { stack := rest ++ done, err := none } ∧
        done ≠ [] ∧ ∀ f ∈ done, Done t f)

/-! ## Sample collaborators -/

/-- Modelled from the spec: the tree hasher's code (`isLeaf`, `parseNode`,
`parseLeaf`, `zeroValue`) is not among the sources.  This instance follows the
spec's reserved prefix byte: a blob starting with `0` is a leaf, what follows
the prefix is split after one byte, and the zero value is `[0]`.  It stands
for the hasher on blobs of full length only (prefix byte and two one-byte
fields, three bytes or more): on a shorter blob the slicing of a real hasher
is out of range, while `take` and `drop` return shorter lists.  Every blob of
the sample stores has full length. -/
def sampleHasher : treeHasher where
  isLeaf raw := raw.take 1 == [0]
  parseNode raw := ((raw.drop 1).take 1, raw.drop 2)
  parseLeaf raw := ((raw.drop 1).take 1, raw.drop 2)
  zeroValue := [0]

/-- Modelled from the spec: a map store's `Get` over an association list,
failing with a store error of its own on an absent key. -/
def mapGet (m : List (Bytes × Bytes)) (key : Bytes) : Except Error Bytes :=
  match m.lookup key with
  | some v => .ok v
  | none => .error (.storeFailure 1)

/-- A sample node store: the inner root `[9]` has the leaf `[3]` (path `[5]`,
value reference `[6]`) on the left and the inner node `[4]` on the right, whose
left child is the zero value and whose right child is the leaf `[7]` (path
`[8]`, value reference `[2]`). -/
def sampleNodes : List (Bytes × Bytes) :=
  [([9], [1, 3, 4]), ([3], [0, 5, 6]), ([4], [1, 0, 7]), ([7], [0, 8, 2])]

/-- A sample value store, keyed by leaf path. -/
def sampleValues : List (Bytes × Bytes) :=
  [([5], [50]), ([8], [80])]

/-- The sample tree instance. -/
def sampleTrie : SparseMerkleTree where
  th := sampleHasher
  nodes := mapGet sampleNodes
  values := mapGet sampleValues
  root := [9]

/-- The shape stored under the root of `sampleTrie`. -/
def sampleTree : Tree :=
  .inner [1, 3, 4] (.leaf [0, 5, 6]) (.inner [1, 0, 7] .empty (.leaf [0, 8, 2]))

/-- The sample iterator standing on the left leaf, as two calls of `Next` leave it. -/
def sampleAtLeaf : iterator where
  stack := [⟨[9], [1, 3, 4], true, false⟩, ⟨[3], [0, 5, 6], false, false⟩]
  err := none

/-- A freshly constructed tree: the root is the zero value and nothing is stored. -/
def emptyTrie : SparseMerkleTree where
  th := sampleHasher
  nodes := mapGet []
  values := mapGet []
  root := [0]

/-- A tree whose root blob names two children that the node store lacks. -/
def danglingTrie : SparseMerkleTree where
  th := sampleHasher
  nodes := mapGet [([9], [1, 3, 4])]
  values := mapGet []
  root := [9]

/-- A tree whose root has a zero left child and a leaf on the right. -/
def sparseTrie : SparseMerkleTree where
  th := sampleHasher
  nodes := mapGet [([9], [1, 0, 4]), ([4], [0, 7, 8])]
  values := mapGet []
  root := [9]

/-- The same tree over a node store that also holds a blob under the zero
value and an orphan under `[2]`. -/
def pollutedTrie : SparseMerkleTree where
  th := sampleHasher
  nodes := mapGet [([0], [1, 9, 9]), ([9], [1, 0, 4]), ([4], [0, 7, 8]), ([2], [0, 1, 1])]
  values := mapGet []
  root := [9]

/-- The root frame of `danglingTrie`, as the first call of `Next` pushes it. -/
def danglingRoot : iteratorState := ⟨[9], [1, 3, 4], false, false⟩

/-- A tree whose root blob starts with the byte `7`, which is neither the leaf
prefix nor the inner prefix, and has the full length of an inner blob; the
digests `[3]` and `[4]` hold leaves. -/
def malformedTrie : SparseMerkleTree where
  th := sampleHasher
  nodes := mapGet [([9], [7, 3, 4]), ([3], [0, 5, 6]), ([4], [0, 7, 8])]
  values := mapGet []
  root := [9]

/-- Modelled from the spec: the Inner encoding of the sample hasher, marked by
the prefix byte `1` as the Leaf encoding is by `0`. -/
def sampleIsInner (raw : Bytes) : Bool := raw.take 1 == [1]

/-- A tree whose root has a stored left leaf and a right child `[4]` that the
node store lacks. -/
def halfTrie : SparseMerkleTree where
  th := sampleHasher
  nodes := mapGet [([9], [1, 3, 4]), ([3], [0, 5, 6])]
  values := mapGet []
  root := [9]

/-- The partial shape stored under the root of `halfTrie`. -/
def halfTree : PTree :=
  .inner [1, 3, 4] (.leaf [0, 5, 6]) .missing

/-! ## Options (`options.go`) -/

/-- Modelled from the spec: the declaration of `BaseSMT` is not among the
sources.  `ph` is the field `SetPathHasher` assigns, `other` stands for every
remaining field of the configuration. -/
structure BaseSMT (PathHasher Other : Type) where
  ph : PathHasher
  other : Other

/-- The option `SetPathHasher(ph)`: a `func(*BaseSMT)`, given as the
configuration it leaves behind. -/
def SetPathHasher {PathHasher Other : Type} (ph : PathHasher) :
    BaseSMT PathHasher Other → BaseSMT PathHasher Other :=
  fun smt => { smt with ph := ph }

/-! ## The pop loop -/

theorem forLoop_nil (t : SparseMerkleTree) (fuel : Nat) :
    forLoop t fuel [] = ([], .error .ErrIteratorEnd) := by
  cases fuel <;> simp [forLoop]

theorem forLoop_concat (t : SparseMerkleTree) (fuel : Nat) (rest : List iteratorState)
    (f : iteratorState) :
    forLoop t (fuel + 1) (rest ++ [f]) =
      match (nextChild t f).out with
      | .error err => (rest ++ [(nextChild t f).parent], .error err)
      | .ok (child, shouldPop) =>
        if !shouldPop then (rest ++ [(nextChild t f).parent], .ok child)
        else forLoop t fuel rest := by
  simp only [forLoop, List.getLast?_concat, List.dropLast_concat, pop]

/-- Rounds beyond `len(i.stack)` are never used: the loop has ended by then. -/
theorem forLoop_fuel (t : SparseMerkleTree) (stack : List iteratorState) :
    ∀ fuel, stack.length ≤ fuel → forLoop t fuel stack = forLoop t stack.length stack := by
  induction stack using List.reverseRecOn with
  | nil => intro fuel _; simp [forLoop_nil]
  | append_singleton rest f ih =>
    intro fuel h
    simp only [List.length_append, List.length_singleton] at h ⊢
    obtain ⟨k, rfl⟩ : ∃ k, fuel = k + 1 := ⟨fuel - 1, by omega⟩
    rw [forLoop_concat, forLoop_concat, ih k (by omega)]

theorem forLoop_done (t : SparseMerkleTree) (rest done : List iteratorState)
    (h : ∀ f ∈ done, Done t f) :
    forLoop t (rest ++ done).length (rest ++ done) = forLoop t rest.length rest := by
  induction done using List.reverseRecOn with
  | nil => simp
  | append_singleton d f ih =>
    obtain ⟨c, hc⟩ := h f (by simp)
    rw [← List.append_assoc, List.length_append, List.length_singleton, forLoop_concat, hc]
    simpa using ih (fun g hg => h g (by simp [hg]))

theorem Next_stack (t : SparseMerkleTree) (stack : List iteratorState) (h : stack ≠ []) :
    Next t { stack := stack, err := none } =
      match forLoop t stack.length stack with
      | (stack1, .error err) => (false, { stack := stack1, err := some err })
      | (stack1, .ok node) => (true, { stack := stack1 ++ [node], err := none }) := by
  have : stack.length ≠ 0 := by simpa using h
  simp [Next, next, this, push]

/-! ## Runs of successful steps -/

theorem Steps.append {t : SparseMerkleTree} {i i1 i2 : iterator} {l1 l2 : List iterator}
    (h1 : Steps t i l1 i1) (h2 : Steps t i1 l2 i2) : Steps t i (l1 ++ l2) i2 := by
  induction h1 with
  | nil _ => simpa using h2
  | cons hn _ ih => exact Steps.cons hn (ih h2)

theorem Steps.visited_eq {t : SparseMerkleTree} {i i1 : iterator} {l : List iterator}
    (h : Steps t i l i1) (m : Nat) :
    visited t (l.length + m) i = l ++ visited t m i1 := by
  induction h with
  | nil _ => simp
  | cons hn _ ih =>
    rw [List.length_cons, Nat.add_right_comm]
    simp [smt.visited, hn, ih]

theorem Steps.flags_eq {t : SparseMerkleTree} {i i1 : iterator} {l : List iterator}
    (h : Steps t i l i1) (m : Nat) :
    flags t (l.length + m) i = List.replicate l.length true ++ flags t m i1 := by
  induction h with
  | nil _ => simp
  | cons hn _ ih =>
    rw [List.length_cons, Nat.add_right_comm]
    simp [smt.flags, hn, ih, List.replicate_succ]

theorem Steps.NextN_eq {t : SparseMerkleTree} {i i1 : iterator} {l : List iterator}
    (h : Steps t i l i1) (m : Nat) :
    NextN t (l.length + m) i = NextN t m i1 := by
  induction h with
  | nil _ => simp
  | cons hn _ ih =>
    rw [List.length_cons, Nat.add_right_comm]
    simp [smt.NextN, hn, ih]

/-- With finished frames `done` above a frame `p` whose next child is `c`,
one call of `Next` drops `done`, updates `p` and pushes `c`. -/
theorem Next_push (t : SparseMerkleTree) (rest done : List iteratorState)
    (p p1 c : iteratorState) (hd : ∀ f ∈ done, Done t f)
    (hp : nextChild t p = { parent := p1, out := .ok (c, false) }) :
    Next t { stack := rest ++ [p] ++ done, err := none } =
      (true, { stack := rest ++ [p1] ++ [c], err := none }) := by
  rw [Next_stack _ _ (by simp), forLoop_done _ _ _ hd, List.length_append,
    List.length_singleton, forLoop_concat, hp]
  simp

/-- With only finished frames on the stack, `Next` empties it and ends. -/
theorem Next_end (t : SparseMerkleTree) (done : List iteratorState)
    (hne : done ≠ []) (hd : ∀ f ∈ done, Done t f) :
    Next t { stack := done, err := none } =
      (false, { stack := [], err := some .ErrIteratorEnd }) := by
  have h := forLoop_done t [] done hd
  simp only [List.nil_append] at h
  rw [Next_stack _ _ hne, h]
  simp [forLoop]

theorem Done_leaf (t : SparseMerkleTree) (f : iteratorState)
    (h : t.th.isLeaf f.rawNode = true) : Done t f :=
  ⟨f, by simp [nextChild, h]⟩

theorem Tree.eq_empty_of_raw_none {tr : Tree} (h : tr.raw? = none) : tr = .empty := by
  cases tr <;> simp [Tree.raw?] at h ⊢

/-- The traversal of one stored subtree: from its freshly pushed frame, the
following successful steps show the rest of its pre-order listing and leave
only finished frames above `rest`. -/
theorem subtree_steps (t : SparseMerkleTree) :
    ∀ tr : Tree, WellFormed t tr → ∀ raw, tr.raw? = some raw →
    ∀ (hash : Bytes) (rest : List iteratorState),
    ∃ l done,
      Steps t { stack := rest ++ [⟨hash, raw, false, false⟩], err := none } l
        { stack := rest ++ done, err := none } ∧
      done ≠ [] ∧ (∀ f ∈ done, Done t f) ∧
      some raw :: l.map NodeBlob = tr.preorder.map some := by
  intro tr
  induction tr with
  | empty => intro _ raw h; simp [Tree.raw?] at h
  | leaf raw0 =>
    intro hwf raw h hash rest
    simp only [Tree.raw?, Option.some.injEq] at h
    subst h
    refine ⟨[], [⟨hash, raw0, false, false⟩], Steps.nil _, by simp, ?_, by simp [Tree.preorder]⟩
    intro f hf
    simp only [List.mem_singleton] at hf
    subst hf
    exact Done_leaf t _ hwf
  | inner raw0 tl tr ihl ihr =>
    intro hwf raw h hash rest
    simp only [Tree.raw?, Option.some.injEq] at h
    subst h
    obtain ⟨hleaf, hl, hr, wl, wr⟩ := hwf
    cases hrl : tl.raw? with
    | none =>
      have hlz : t.th.zeroValue = (t.th.parseNode raw0).1 := by
        simp only [Link, hrl] at hl
        exact hl.symm
      have := Tree.eq_empty_of_raw_none hrl
      subst this
      cases hrr : tr.raw? with
      | none =>
        have hrz : t.th.zeroValue = (t.th.parseNode raw0).2 := by
          simp only [Link, hrr] at hr
          exact hr.symm
        have := Tree.eq_empty_of_raw_none hrr
        subst this
        refine ⟨[], [⟨hash, raw0, false, false⟩], Steps.nil _, by simp, ?_,
          by simp [Tree.preorder]⟩
        intro f hf
        simp only [List.mem_singleton] at hf
        subst hf
        exact ⟨_, by simp [nextChild, nextChildRight, hleaf, ← hlz, ← hrz]; rfl⟩
      | some rr =>
        simp only [Link, hrr] at hr
        have hrn : ¬ t.th.zeroValue = (t.th.parseNode raw0).2 := fun e => hr.1 e.symm
        have step := Next_push t rest [] ⟨hash, raw0, false, false⟩ ⟨hash, raw0, true, true⟩
          ⟨(t.th.parseNode raw0).2, rr, false, false⟩ (by simp)
          (by simp [nextChild, nextChildRight, hleaf, ← hlz, hrn, hr.2])
        obtain ⟨lr, doneR, sr, _, hdR, hbR⟩ :=
          ihr wr rr hrr (t.th.parseNode raw0).2 (rest ++ [⟨hash, raw0, true, true⟩])
        simp only [List.append_nil] at step
        have st := Steps.cons step sr
        simp only [List.append_assoc, List.singleton_append] at st
        refine ⟨_, ⟨hash, raw0, true, true⟩ :: doneR, st, by simp, ?_, ?_⟩
        · intro f hf
          rcases List.mem_cons.1 hf with rfl | hf
          · exact ⟨_, by simp [nextChild, nextChildRight, hleaf]; rfl⟩
          · exact hdR f hf
        · simp [NodeBlob, Tree.preorder, ← hbR]
    | some rl =>
      simp only [Link, hrl] at hl
      have hln : ¬ t.th.zeroValue = (t.th.parseNode raw0).1 := fun e => hl.1 e.symm
      have step1 := Next_push t rest [] ⟨hash, raw0, false, false⟩ ⟨hash, raw0, true, false⟩
        ⟨(t.th.parseNode raw0).1, rl, false, false⟩ (by simp)
        (by simp [nextChild, hleaf, hln, hl.2])
      simp only [List.append_nil] at step1
      obtain ⟨ll, doneL, sl, _, hdL, hbL⟩ :=
        ihl wl rl hrl (t.th.parseNode raw0).1 (rest ++ [⟨hash, raw0, true, false⟩])
      cases hrr : tr.raw? with
      | none =>
        have hrz : t.th.zeroValue = (t.th.parseNode raw0).2 := by
          simp only [Link, hrr] at hr
          exact hr.symm
        have := Tree.eq_empty_of_raw_none hrr
        subst this
        have st := Steps.cons step1 sl
        simp only [List.append_assoc, List.singleton_append] at st
        refine ⟨_, ⟨hash, raw0, true, false⟩ :: doneL, st, by simp, ?_, ?_⟩
        · intro f hf
          rcases List.mem_cons.1 hf with rfl | hf
          · exact ⟨_, by simp [nextChild, nextChildRight, hleaf, ← hrz]; rfl⟩
          · exact hdL f hf
        · simp [NodeBlob, Tree.preorder, ← hbL]
      | some rr =>
        simp only [Link, hrr] at hr
        have hrn : ¬ t.th.zeroValue = (t.th.parseNode raw0).2 := fun e => hr.1 e.symm
        have step2 := Next_push t rest doneL ⟨hash, raw0, true, false⟩ ⟨hash, raw0, true, true⟩
          ⟨(t.th.parseNode raw0).2, rr, false, false⟩ hdL
          (by simp [nextChild, nextChildRight, hleaf, hrn, hr.2])
        obtain ⟨lr, doneR, sr, _, hdR, hbR⟩ :=
          ihr wr rr hrr (t.th.parseNode raw0).2 (rest ++ [⟨hash, raw0, true, true⟩])
        have st := Steps.append (Steps.cons step1 sl) (Steps.cons step2 sr)
        simp only [List.append_assoc, List.singleton_append] at st
        refine ⟨_, ⟨hash, raw0, true, true⟩ :: doneR, st, by simp, ?_, ?_⟩
        · intro f hf
          rcases List.mem_cons.1 hf with rfl | hf
          · exact ⟨_, by simp [nextChild, nextChildRight, hleaf]; rfl⟩
          · exact hdR f hf
        · simp [NodeBlob, Tree.preorder, ← hbL, ← hbR]

theorem Tree.length_preorder (tr : Tree) : tr.preorder.length = tr.size := by
  induction tr with
  | empty => rfl
  | leaf _ => rfl
  | inner _ l r ihl ihr => simp [Tree.preorder, Tree.size, ihl, ihr]; omega

/-- On a well-formed tree the leaves are the blobs of the pre-order listing
that `isLeaf` accepts. -/
theorem Tree.leaves_eq_filter (t : SparseMerkleTree) (tr : Tree) (h : WellFormed t tr) :
    tr.leaves = tr.preorder.filter t.th.isLeaf := by
  induction tr with
  | empty => rfl
  | leaf raw => simp [Tree.leaves, Tree.preorder, WellFormed] at h ⊢; simp [h]
  | inner raw l r ihl ihr =>
    obtain ⟨hleaf, _, _, wl, wr⟩ := h
    simp [Tree.leaves, Tree.preorder, hleaf, ihl wl, ihr wr]

/-- The whole traversal of a stored tree: the successful steps show the
pre-order listing, and the call after them ends the iteration. -/
theorem full_run (t : SparseMerkleTree) (tr : Tree) (h : StoredUnderRoot t tr) :
    ∃ l last, Steps t fresh l last ∧ l.map NodeBlob = tr.preorder.map some ∧
      l.length = tr.size ∧
      Next t last = (false, { stack := [], err := some .ErrIteratorEnd }) := by
  obtain ⟨hwf, raw, hraw, hroot⟩ := h
  obtain ⟨l, done, st, hne, hd, hb⟩ := subtree_steps t tr hwf raw hraw t.root []
  have h0 : Next t fresh = (true, { stack := [⟨t.root, raw, false, false⟩], err := none }) := by
    simp [Next, next, fresh, init, hroot, push]
  simp only [List.nil_append] at st
  have hmap : (({ stack := [⟨t.root, raw, false, false⟩], err := none } : iterator) :: l).map
      NodeBlob = tr.preorder.map some := by
    rw [← hb]; simp [NodeBlob]
  refine ⟨_, _, Steps.cons h0 st, hmap, ?_, Next_end t done hne hd⟩
  have := congrArg List.length hmap
  simpa [Tree.length_preorder] using this

theorem visited_of_false (t : SparseMerkleTree) (i : iterator) (fuel : Nat)
    (h : (Next t i).1 = false) : visited t fuel i = [] := by
  cases fuel <;> simp [visited, h]

theorem visited_full (t : SparseMerkleTree) (tr : Tree) (h : StoredUnderRoot t tr) (k : Nat) :
    (visited t (tr.size + 1 + k) fresh).map NodeBlob = tr.preorder.map some := by
  obtain ⟨l, last, st, hb, hlen, hend⟩ := full_run t tr h
  have hv := st.visited_eq (1 + k)
  rw [hlen, ← Nat.add_assoc] at hv
  rw [hv, visited_of_false t last _ (by rw [hend]), List.append_nil, hb]

/-! ## The traversal of a stored tree -/

/-- C1: for a finite tree stored under the root, the `NodeBlob()` values seen
after the calls of `Next()` that return true are exactly the pre-order listing
of the tree (node, left subtree, right subtree; zero children add nothing),
and the loop stops by itself once `Next()` has been called one more time than
there are nodes. -/
theorem Next_yields_preorder (t : SparseMerkleTree) (tr : Tree)
    (h : StoredUnderRoot t tr) (k : Nat) :
    (visited t (tr.size + 1 + k) fresh).map NodeBlob = tr.preorder.map some ∧
    (visited t (tr.size + 1 + k) fresh).length = tr.size := by
  have hv := visited_full t tr h k
  refine ⟨hv, ?_⟩
  have := congrArg List.length hv
  simpa [Tree.length_preorder] using this

theorem sample_stored : StoredUnderRoot sampleTrie sampleTree := by
  simp [StoredUnderRoot, WellFormed, Link, Tree.raw?, sampleTree, sampleTrie, sampleHasher,
    mapGet, sampleNodes, List.lookup]

/-- Witness of C1 on the sample tree: four nodes, one zero child. -/
theorem Next_yields_preorder_witness :
    StoredUnderRoot sampleTrie sampleTree ∧
    (visited sampleTrie 5 fresh).map NodeBlob =
      [some [1, 3, 4], some [0, 5, 6], some [1, 0, 7], some [0, 8, 2]] :=
  ⟨sample_stored, (Next_yields_preorder sampleTrie sampleTree sample_stored 0).1⟩

theorem Leaf_eq (t : SparseMerkleTree) (i : iterator) :
    Leaf t i = (NodeBlob i).map t.th.isLeaf := by
  simp [Leaf, NodeBlob, Function.comp_def]

theorem LeafKey_eq (t : SparseMerkleTree) (i : iterator) :
    LeafKey t i = (NodeBlob i).map fun raw => (t.th.parseLeaf raw).1 := by
  simp [LeafKey, NodeBlob, Function.comp_def]

theorem LeafValue_eq (t : SparseMerkleTree) (i : iterator) :
    LeafValue t i = (NodeBlob i).map fun raw => t.values (t.th.parseLeaf raw).1 := by
  simp [LeafValue, NodeBlob, Function.comp_def]

theorem collectLeaves_eq (t : SparseMerkleTree) (fuel : Nat) (i : iterator) :
    collectLeaves t fuel i =
      ((((visited t fuel i).map NodeBlob).filter fun b => b.map t.th.isLeaf == some true).map
        fun b => (b.map fun raw => (t.th.parseLeaf raw).1,
                  b.map fun raw => t.values (t.th.parseLeaf raw).1)) := by
  simp only [collectLeaves, List.filter_map, List.map_map]
  congr 1
  · funext it; simp [LeafKey_eq, LeafValue_eq]
  · congr 1; funext it; simp [Leaf_eq]

/-- C2: for a finite well-formed tree stored under the root whose value store
holds an entry under the path of every leaf, the loop
`for it.Next() { if it.Leaf() { collect (it.LeafKey(), it.LeafValue()) } }`
collects exactly the leaves of the tree, each once and in pre-order, as pairs
of the stored path and the value kept under it, and no `LeafValue()` is an
error. -/
theorem collectLeaves_eq_leaves (t : SparseMerkleTree) (tr : Tree)
    (h : StoredUnderRoot t tr)
    (hv : ∀ raw ∈ tr.leaves, ∃ v, t.values (t.th.parseLeaf raw).1 = .ok v) (k : Nat) :
    collectLeaves t (tr.size + 1 + k) fresh =
        tr.leaves.map (fun raw =>
          (some (t.th.parseLeaf raw).1, some (t.values (t.th.parseLeaf raw).1))) ∧
    ∀ p ∈ collectLeaves t (tr.size + 1 + k) fresh, ∃ key v, p = (some key, some (.ok v)) := by
  have hc : collectLeaves t (tr.size + 1 + k) fresh =
      tr.leaves.map (fun raw =>
        (some (t.th.parseLeaf raw).1, some (t.values (t.th.parseLeaf raw).1))) := by
    rw [collectLeaves_eq, visited_full t tr h k, Tree.leaves_eq_filter t tr h.1]
    simp [List.filter_map, List.map_map, Function.comp_def]
  refine ⟨hc, ?_⟩
  rw [hc]
  intro p hp
  obtain ⟨raw, hraw, rfl⟩ := List.mem_map.1 hp
  obtain ⟨v, hv⟩ := hv raw hraw
  exact ⟨_, v, by rw [hv]⟩

/-- Witness of C2 on the sample tree and its value store. -/
theorem collectLeaves_eq_leaves_witness :
    StoredUnderRoot sampleTrie sampleTree ∧
    (∀ raw ∈ sampleTree.leaves, ∃ v,
      sampleTrie.values (sampleTrie.th.parseLeaf raw).1 = .ok v) ∧
    collectLeaves sampleTrie 5 fresh =
      [(some [5], some (.ok [50])), (some [8], some (.ok [80]))] := by
  have hv : ∀ raw ∈ sampleTree.leaves, ∃ v,
      sampleTrie.values (sampleTrie.th.parseLeaf raw).1 = .ok v := by
    simp [sampleTree, Tree.leaves, sampleTrie, sampleHasher, mapGet, sampleValues, List.lookup]
  refine ⟨sample_stored, hv, ?_⟩
  have := (collectLeaves_eq_leaves sampleTrie sampleTree sample_stored hv 0).1
  simpa [sampleTree, Tree.leaves, Tree.size, sampleTrie, sampleHasher, mapGet, sampleValues,
    List.lookup] using this

/-- C3: for a well-formed tree with `N` nodes stored under the root, `Next()`
returns true on exactly the first `N` calls and false on call `N + 1`; that
call stores `ErrIteratorEnd` and leaves the stack empty; and the pop loop of
`next` always terminates: it never needs more than `len(i.stack)` rounds. -/
theorem Next_true_exactly_size (t : SparseMerkleTree) (tr : Tree)
    (h : StoredUnderRoot t tr) :
    flags t (tr.size + 1) fresh = List.replicate tr.size true ++ [false] ∧
    NextN t (tr.size + 1) fresh = { stack := [], err := some .ErrIteratorEnd } ∧
    ∀ (stack : List iteratorState) (fuel : Nat), stack.length ≤ fuel →
      forLoop t fuel stack = forLoop t stack.length stack := by
  obtain ⟨l, last, st, _, hlen, hend⟩ := full_run t tr h
  refine ⟨?_, ?_, forLoop_fuel t⟩
  · have := st.flags_eq 1
    rw [hlen] at this
    rw [this]
    simp [flags, hend]
  · have := st.NextN_eq 1
    rw [hlen] at this
    rw [this]
    simp [NextN, hend]

/-- Witness of C3 on the sample tree (four nodes). -/
theorem Next_true_exactly_size_witness :
    StoredUnderRoot sampleTrie sampleTree ∧
    flags sampleTrie 5 fresh = [true, true, true, true, false] ∧
    NextN sampleTrie 5 fresh = { stack := [], err := some .ErrIteratorEnd } :=
  ⟨sample_stored, (Next_true_exactly_size sampleTrie sampleTree sample_stored).1,
    (Next_true_exactly_size sampleTrie sampleTree sample_stored).2.1⟩

/-! ## Single pass -/

theorem Next_err_isSome (t : SparseMerkleTree) (i : iterator) (h : (Next t i).1 = false) :
    ∃ e, (Next t i).2.err = some e := by
  unfold Next at h ⊢
  cases herr : i.err with
  | some e => exact ⟨e, by simp [herr]⟩
  | none =>
    simp only [herr] at h ⊢
    rcases hn : next t true i.stack with ⟨stack1, e | node⟩
    · exact ⟨e, by simp⟩
    · simp [hn] at h

theorem Next_of_err (t : SparseMerkleTree) (i : iterator) (e : Error) (h : i.err = some e) :
    Next t i = (false, i) := by
  simp [Next, h]

theorem NextN_of_err (t : SparseMerkleTree) (i : iterator) (e : Error) (h : i.err = some e) :
    ∀ n, NextN t n i = i ∧ flags t n i = List.replicate n false := by
  intro n
  induction n with
  | zero => simp [NextN, flags]
  | succ n ih => simp [NextN, flags, Next_of_err t i e h, ih, List.replicate_succ]

/-- C4: the iterator is single-pass: for every tree, store and iterator state,
once a call of `Next()` has returned false, every later call returns false as
well and leaves the stack and the stored terminal condition as they are; in
particular an emptied stack is never refilled from the root. -/
theorem Next_false_forever (t : SparseMerkleTree) (i : iterator)
    (h : (Next t i).1 = false) (n : Nat) :
    NextN t n (Next t i).2 = (Next t i).2 ∧
    flags t n (Next t i).2 = List.replicate n false ∧
    Next t (Next t i).2 = (false, (Next t i).2) := by
  obtain ⟨e, he⟩ := Next_err_isSome t i h
  exact ⟨(NextN_of_err t _ e he n).1, (NextN_of_err t _ e he n).2, Next_of_err t _ e he⟩

/-- Witness of C4: the sample traversal after its fourth step; the exhausted
iterator stays at the empty stack although the root is still stored. -/
theorem Next_false_forever_witness :
    (Next sampleTrie (NextN sampleTrie 4 fresh)).1 = false ∧
    (Next sampleTrie (NextN sampleTrie 4 fresh)).2 =
      { stack := [], err := some .ErrIteratorEnd } ∧
    NextN sampleTrie 5 (Next sampleTrie (NextN sampleTrie 4 fresh)).2 =
      (Next sampleTrie (NextN sampleTrie 4 fresh)).2 :=
  ⟨by decide, by decide,
    (Next_false_forever sampleTrie (NextN sampleTrie 4 fresh) (by decide) 5).1⟩

/-! ## Leaf values -/

/-- C5, as stated, fails: on the sample leaf `parseLeaf` gives path `[5]` and
value reference `[6]`; `LeafValue()` returns the value stored under the path,
while the value store has nothing under the value reference. -/
theorem LeafValue_not_by_valueRef :
    sampleTrie.th.isLeaf [0, 5, 6] = true ∧
    sampleTrie.th.parseLeaf [0, 5, 6] = ([5], [6]) ∧
    LeafValue sampleTrie sampleAtLeaf = some (.ok [50]) ∧
    sampleTrie.values [6] = .error (.storeFailure 1) ∧
    LeafValue sampleTrie sampleAtLeaf ≠ some (sampleTrie.values [6]) := by
  refine ⟨by decide, by decide, by decide, by decide, ?_⟩
  simp [LeafValue, sampleAtLeaf, sampleTrie, sampleHasher, mapGet, sampleValues, List.lookup]

/-- C5, amended: when the top-of-stack node is a leaf with
`parseLeaf(rawNode) = (path, valueRef)`, `LeafValue()` returns the result of
looking up `path`, the first component, in the value store, and so returns
the store's error when nothing is stored under that path. -/
theorem LeafValue_by_path (t : SparseMerkleTree) (i : iterator) (f : iteratorState)
    (path valueRef : Bytes) (htop : i.stack.getLast? = some f)
    (_hleaf : t.th.isLeaf f.rawNode = true)
    (hparse : t.th.parseLeaf f.rawNode = (path, valueRef)) :
    LeafValue t i = some (t.values path) ∧
    ∀ e, t.values path = .error e → LeafValue t i = some (.error e) := by
  have h : LeafValue t i = some (t.values path) := by simp [LeafValue, htop, hparse]
  exact ⟨h, fun e he => by rw [h, he]⟩

/-- Witness of the amended C5 on the sample leaf. -/
theorem LeafValue_by_path_witness :
    LeafValue sampleTrie sampleAtLeaf = some (sampleTrie.values [5]) :=
  (LeafValue_by_path sampleTrie sampleAtLeaf ⟨[3], [0, 5, 6], false, false⟩ [5] [6]
    (by decide) (by decide) (by decide)).1

/-! ## Store failures -/

/-- C6, at the failing input: on a fresh tree with nothing stored under the
root the store's `Get` fails with its own error, and the first `Next()`
returns false and stores that error, where the claim, like both child lookups
of `nextChild`, gives `ErrNodeNotFound`. -/
theorem root_missing_not_ErrNodeNotFound :
    emptyTrie.nodes emptyTrie.root = .error (.storeFailure 1) ∧
    Next emptyTrie fresh = (false, { stack := [], err := some (.storeFailure 1) }) ∧
    (Next emptyTrie fresh).2.err ≠ some .ErrNodeNotFound := by
  decide

/-- What `init` does with a failed root lookup: on an iterator with an empty
stack and no stored terminal condition, when the node store's `Get` fails on
the root with error `e`, `Next()` returns false and stores `e` itself, so
the stored condition is `ErrNodeNotFound` only when the store returned that. -/
theorem root_missing_stores_store_error (t : SparseMerkleTree) (e : Error)
    (h : t.nodes t.root = .error e) :
    Next t { stack := [], err := none } = (false, { stack := [], err := some e }) ∧
    ((Next t { stack := [], err := none }).2.err = some .ErrNodeNotFound ↔
      e = .ErrNodeNotFound) := by
  have h1 : Next t { stack := [], err := none } = (false, { stack := [], err := some e }) := by
    simp [Next, next, init, h]
  refine ⟨h1, ?_⟩
  rw [h1]
  simp

/-- The failed root lookup on the fresh tree. -/
theorem root_missing_stores_store_error_witness :
    Next emptyTrie { stack := [], err := none } =
      (false, { stack := [], err := some (.storeFailure 1) }) :=
  (root_missing_stores_store_error emptyTrie (.storeFailure 1) (by decide)).1

theorem nextChildRight_error (t : SparseMerkleTree) (r : Bytes) (f : iteratorState)
    (e : Error) (h : (nextChildRight t r f).out = .error e) : e = .ErrNodeNotFound := by
  unfold nextChildRight at h
  cases hv : f.rightVisited <;> by_cases hz : t.th.zeroValue = r <;>
    cases hg : t.nodes r <;> simp_all

theorem nextChild_error (t : SparseMerkleTree) (f : iteratorState) (e : Error)
    (h : (nextChild t f).out = .error e) : e = .ErrNodeNotFound := by
  unfold nextChild at h
  cases hl : t.th.isLeaf f.rawNode <;> cases hv : f.leftVisited <;>
    by_cases hz : t.th.zeroValue = (t.th.parseNode f.rawNode).1 <;>
    cases hg : t.nodes (t.th.parseNode f.rawNode).1 <;> simp_all <;>
    exact nextChildRight_error _ _ _ _ h

/-- With finished frames `done` above a frame `p` whose child lookup fails,
one call of `Next` drops `done`, keeps `p` as `nextChild` left it and stores
the error of `nextChild`. -/
theorem Next_fail (t : SparseMerkleTree) (rest done : List iteratorState)
    (p p1 : iteratorState) (e : Error) (hd : ∀ f ∈ done, Done t f)
    (hp : nextChild t p = { parent := p1, out := .error e }) :
    Next t { stack := rest ++ [p] ++ done, err := none } =
      (false, { stack := rest ++ [p1], err := some e }) := by
  rw [Next_stack _ _ (by simp), forLoop_done _ _ _ hd, List.length_append,
    List.length_singleton, forLoop_concat, hp]

/-- C7, as stated, fails: the node store fails on the left child of the root
with its own error, and the iterator stores `ErrNodeNotFound` instead. -/
theorem child_failure_not_propagated :
    danglingTrie.nodes (danglingTrie.th.parseNode danglingRoot.rawNode).1 =
      .error (.storeFailure 1) ∧
    Next danglingTrie { stack := [danglingRoot], err := none } =
      (false, { stack := [danglingRoot], err := some .ErrNodeNotFound }) ∧
    (Next danglingTrie { stack := [danglingRoot], err := none }).2.err ≠
      some (.storeFailure 1) := by
  decide

/-- C7, amended: a failure `e` of the node store's `Get` during `Next()` is
stored unchanged when the root is being fetched; when a left or a right child
is being fetched the stored terminal condition is `ErrNodeNotFound`, whatever
`e` was: `nextChild` returns no other error. -/
theorem store_failure_by_fetch_site (t : SparseMerkleTree) (e : Error)
    (rest done : List iteratorState) (f : iteratorState)
    (hd : ∀ g ∈ done, Done t g) (hleaf : t.th.isLeaf f.rawNode = false) :
    (t.nodes t.root = .error e →
      Next t { stack := [], err := none } = (false, { stack := [], err := some e })) ∧
    (f.leftVisited = false → (t.th.parseNode f.rawNode).1 ≠ t.th.zeroValue →
      t.nodes (t.th.parseNode f.rawNode).1 = .error e →
      Next t { stack := rest ++ [f] ++ done, err := none } =
        (false, { stack := rest ++ [f], err := some .ErrNodeNotFound })) ∧
    ((f.leftVisited = true ∨ (t.th.parseNode f.rawNode).1 = t.th.zeroValue) →
      f.rightVisited = false → (t.th.parseNode f.rawNode).2 ≠ t.th.zeroValue →
      t.nodes (t.th.parseNode f.rawNode).2 = .error e →
      Next t { stack := rest ++ [f] ++ done, err := none } =
        (false, { stack := rest ++ [{ f with leftVisited := true }],
                  err := some .ErrNodeNotFound })) ∧
    (∀ g e1, (nextChild t g).out = .error e1 → e1 = .ErrNodeNotFound) := by
  refine ⟨?_, ?_, ?_, fun g e1 h => nextChild_error t g e1 h⟩
  · intro h
    simp [Next, next, init, h]
  · intro hv hz hg
    have hz1 : ¬ t.th.zeroValue = (t.th.parseNode f.rawNode).1 := fun h => hz h.symm
    exact Next_fail t rest done f f .ErrNodeNotFound hd
      (by simp [nextChild, hleaf, hv, hz1, hg])
  · intro hl hv hz hg
    have hz1 : ¬ t.th.zeroValue = (t.th.parseNode f.rawNode).2 := fun h => hz h.symm
    apply Next_fail t rest done f _ .ErrNodeNotFound hd
    obtain ⟨hash, raw, lv, rv⟩ := f
    simp only at hl hv hleaf hz1 hg ⊢
    subst hv
    rcases hl with rfl | hl
    · simp [nextChild, nextChildRight, hleaf, hz1, hg]
    · cases lv <;> simp [nextChild, nextChildRight, hleaf, hl, hz1, hg]

/-- Witness of the amended C7: the root fetch on the fresh tree, the left child
and the right child of the dangling root. -/
theorem store_failure_by_fetch_site_witness :
    Next emptyTrie { stack := [], err := none } =
      (false, { stack := [], err := some (.storeFailure 1) }) ∧
    Next danglingTrie { stack := [danglingRoot], err := none } =
      (false, { stack := [danglingRoot], err := some .ErrNodeNotFound }) ∧
    Next danglingTrie { stack := [⟨[9], [1, 3, 4], true, false⟩], err := none } =
      (false, { stack := [⟨[9], [1, 3, 4], true, false⟩], err := some .ErrNodeNotFound }) :=
  ⟨(store_failure_by_fetch_site emptyTrie (.storeFailure 1) [] [] danglingRoot
      (by simp) (by decide)).1 (by decide),
   (store_failure_by_fetch_site danglingTrie (.storeFailure 1) [] [] danglingRoot
      (by simp) (by decide)).2.1 (by decide) (by decide) (by decide),
   (store_failure_by_fetch_site danglingTrie (.storeFailure 1) [] []
      ⟨[9], [1, 3, 4], true, false⟩ (by simp) (by decide)).2.2.1
      (by decide) (by decide) (by decide) (by decide)⟩

/-! ## The empty tree -/

/-- C10: on a fresh iterator over a tree whose root has no node in the node
store, the very first `Next()` returns false, pushes no frame (the stack
stays empty and no node is ever yielded, however often `Next()` is called),
and runs through `init` alone, which indexes nothing. -/
theorem empty_tree_first_Next (t : SparseMerkleTree) (e : Error)
    (h : t.nodes t.root = .error e) :
    (Next t fresh).1 = false ∧ (Next t fresh).2.stack = [] ∧
    (∀ fuel, visited t fuel fresh = []) ∧
    ∀ n, (NextN t n fresh).stack = [] ∧ flags t n fresh = List.replicate n false := by
  have h1 : Next t fresh = (false, { stack := [], err := some e }) := by
    simp [Next, next, init, fresh, h]
  refine ⟨by rw [h1], by rw [h1], fun fuel => visited_of_false t fresh fuel (by rw [h1]), ?_⟩
  intro n
  cases n with
  | zero => simp [NextN, flags, fresh]
  | succ n =>
    have := NextN_of_err t { stack := [], err := some e } e rfl n
    simp [NextN, flags, h1, this, List.replicate_succ]

/-- Witness of C10 on the freshly constructed tree, whose root is the zero value. -/
theorem empty_tree_first_Next_witness :
    emptyTrie.root = emptyTrie.th.zeroValue ∧
    (Next emptyTrie fresh).1 = false ∧ (Next emptyTrie fresh).2.stack = [] :=
  ⟨by decide,
   (empty_tree_first_Next emptyTrie (.storeFailure 1) (by decide)).1,
   (empty_tree_first_Next emptyTrie (.storeFailure 1) (by decide)).2.1⟩

/-! ## Dependence on the node store -/

theorem nextChildRight_congr (t1 t2 : SparseMerkleTree) (hth : t1.th = t2.th)
    (r : Bytes) (f : iteratorState)
    (hr : f.rightVisited = false → ¬ t1.th.zeroValue = r → t1.nodes r = t2.nodes r) :
    nextChildRight t1 r f = nextChildRight t2 r f := by
  unfold nextChildRight
  rw [← hth]
  cases hv : f.rightVisited <;> by_cases hz : t1.th.zeroValue = r <;> simp_all

theorem nextChild_congr (t1 t2 : SparseMerkleTree) (hth : t1.th = t2.th) (f : iteratorState)
    (hl : t1.th.isLeaf f.rawNode = false → f.leftVisited = false →
      ¬ t1.th.zeroValue = (t1.th.parseNode f.rawNode).1 →
      t1.nodes (t1.th.parseNode f.rawNode).1 = t2.nodes (t1.th.parseNode f.rawNode).1)
    (hr : t1.th.isLeaf f.rawNode = false → f.rightVisited = false →
      ¬ t1.th.zeroValue = (t1.th.parseNode f.rawNode).2 →
      t1.nodes (t1.th.parseNode f.rawNode).2 = t2.nodes (t1.th.parseNode f.rawNode).2) :
    nextChild t1 f = nextChild t2 f := by
  unfold nextChild
  rw [← hth]
  cases hleaf : t1.th.isLeaf f.rawNode
  · have hr1 := hr hleaf
    cases hv : f.leftVisited
    · by_cases hz : t1.th.zeroValue = (t1.th.parseNode f.rawNode).1
      · simp only [hz, Bool.not_false, if_true, beq_self_eq_true, Bool.not_true,
          Bool.false_eq_true, if_false]
        exact nextChildRight_congr t1 t2 hth _ _ hr1
      · have := hl hleaf hv hz
        simp [hz, this]
    · simpa using nextChildRight_congr t1 t2 hth _ _ hr1
  · simp

theorem forLoop_congr (t1 t2 : SparseMerkleTree) (stack : List iteratorState)
    (h : ∀ f ∈ stack, nextChild t1 f = nextChild t2 f) :
    ∀ fuel, forLoop t1 fuel stack = forLoop t2 fuel stack := by
  induction stack using List.reverseRecOn with
  | nil => intro fuel; simp [forLoop_nil]
  | append_singleton rest f ih =>
    intro fuel
    cases fuel with
    | zero => simp [forLoop]
    | succ k =>
      rw [forLoop_concat, forLoop_concat, h f (by simp),
        ih (fun g hg => h g (by simp [hg])) k]

theorem Next_congr (t1 t2 : SparseMerkleTree) (i : iterator) (hne : i.stack ≠ [])
    (h : ∀ f ∈ i.stack, nextChild t1 f = nextChild t2 f) : Next t1 i = Next t2 i := by
  have hlen : i.stack.length ≠ 0 := by simpa using hne
  simp [Next, next, hlen, forLoop_congr t1 t2 i.stack h]

theorem nextChildRight_marks (t : SparseMerkleTree) (r : Bytes) (f : iteratorState)
    (hz : r = t.th.zeroValue) :
    (nextChildRight t r f).parent.rightVisited = true ∧
    (nextChildRight t r f).parent.leftVisited = f.leftVisited ∧
    ∃ c, (nextChildRight t r f).out = .ok (c, true) := by
  unfold nextChildRight
  cases hv : f.rightVisited <;> simp [hz, hv]

theorem nextChildRight_leftVisited (t : SparseMerkleTree) (r : Bytes) (f : iteratorState) :
    (nextChildRight t r f).parent.leftVisited = f.leftVisited := by
  unfold nextChildRight
  cases hv : f.rightVisited <;> by_cases hz : t.th.zeroValue = r <;>
    cases hg : t.nodes r <;> simp [hz, hg]

theorem nextChildRight_child (t : SparseMerkleTree) (r : Bytes) (f c : iteratorState)
    (h : (nextChildRight t r f).out = .ok (c, false)) :
    c.hash = r ∧ r ≠ t.th.zeroValue ∧ t.nodes r = .ok c.rawNode := by
  unfold nextChildRight at h
  cases hv : f.rightVisited <;> by_cases hz : t.th.zeroValue = r <;>
    cases hg : t.nodes r <;> simp_all
  subst h
  exact ⟨rfl, fun e => hz e.symm, rfl⟩

/-- C8: a child reference equal to the zero value is never looked up: two
node stores that differ only under the zero value give every `Next()` step
taken from a non-empty stack the same outcome, frame by frame; a zero left
child is marked visited and the frame goes on to its right child, a zero
right child is marked visited and the frame is popped. -/
theorem zero_child_never_fetched (t1 t2 : SparseMerkleTree) (hth : t1.th = t2.th)
    (hagree : ∀ k, k ≠ t1.th.zeroValue → t1.nodes k = t2.nodes k)
    (i : iterator) (hne : i.stack ≠ []) :
    Next t1 i = Next t2 i ∧
    (∀ f, nextChild t1 f = nextChild t2 f) ∧
    (∀ f, t1.th.isLeaf f.rawNode = false →
      (t1.th.parseNode f.rawNode).1 = t1.th.zeroValue →
      (nextChild t1 f).parent.leftVisited = true ∧
      ∀ c, (nextChild t1 f).out = .ok (c, false) → c.hash = (t1.th.parseNode f.rawNode).2) ∧
    (∀ f, t1.th.isLeaf f.rawNode = false →
      (f.leftVisited = true ∨ (t1.th.parseNode f.rawNode).1 = t1.th.zeroValue) →
      (t1.th.parseNode f.rawNode).2 = t1.th.zeroValue →
      (nextChild t1 f).parent.rightVisited = true ∧
      ∃ c, (nextChild t1 f).out = .ok (c, true)) := by
  have hc : ∀ f, nextChild t1 f = nextChild t2 f := fun f =>
    nextChild_congr t1 t2 hth f (fun _ _ hz => hagree _ (fun e => hz e.symm))
      (fun _ _ hz => hagree _ (fun e => hz e.symm))
  refine ⟨Next_congr t1 t2 i hne (fun f _ => hc f), hc, ?_, ?_⟩
  · intro f hleaf hz
    have e : nextChild t1 f = nextChildRight t1 (t1.th.parseNode f.rawNode).2
        { f with leftVisited := true } := by
      unfold nextChild
      cases hv : f.leftVisited
      · simp [hleaf, hz]
      · have : ({ f with leftVisited := true } : iteratorState) = f := by
          cases f; simp_all
        simp [hleaf, this]
    rw [e]
    exact ⟨by rw [nextChildRight_leftVisited], fun c hcout => (nextChildRight_child _ _ _ _ hcout).1⟩
  · intro f hleaf hl hz
    have e : ∃ g, nextChild t1 f = nextChildRight t1 (t1.th.parseNode f.rawNode).2 g := by
      unfold nextChild
      cases hv : f.leftVisited
      · rcases hl with hl | hl
        · simp [hv] at hl
        · exact ⟨{ f with leftVisited := true }, by simp [hleaf, hl]⟩
      · exact ⟨f, by simp [hleaf]⟩
    obtain ⟨g, e⟩ := e
    rw [e]
    have := nextChildRight_marks t1 _ g hz
    exact ⟨this.1, this.2.2⟩

/-- Witness of C8: the root of the sparse tree has a zero left child; with or
without a blob stored under the zero value, `Next()` pushes the right leaf. -/
theorem zero_child_never_fetched_witness :
    pollutedTrie.nodes pollutedTrie.th.zeroValue = .ok [1, 9, 9] ∧
    Next { pollutedTrie with nodes := fun k => if k = [0] then .error (.storeFailure 3)
                                     else pollutedTrie.nodes k }
      { stack := [⟨[9], [1, 0, 4], false, false⟩], err := none } =
    Next pollutedTrie { stack := [⟨[9], [1, 0, 4], false, false⟩], err := none } ∧
    Next pollutedTrie { stack := [⟨[9], [1, 0, 4], false, false⟩], err := none } =
      (true, { stack := [⟨[9], [1, 0, 4], true, true⟩, ⟨[4], [0, 7, 8], false, false⟩],
               err := none }) :=
  ⟨by decide,
   (zero_child_never_fetched
      { pollutedTrie with nodes := fun k => if k = [0] then .error (.storeFailure 3)
                                            else pollutedTrie.nodes k }
      pollutedTrie rfl
      (fun k hk => by
        have : k ≠ [0] := hk
        simp [this])
      { stack := [⟨[9], [1, 0, 4], false, false⟩], err := none } (by simp)).1,
   by decide⟩

theorem nextChildRight_parent (t : SparseMerkleTree) (r : Bytes) (f : iteratorState) :
    (nextChildRight t r f).parent.hash = f.hash ∧
    (nextChildRight t r f).parent.rawNode = f.rawNode := by
  unfold nextChildRight
  cases hv : f.rightVisited <;> by_cases hz : t.th.zeroValue = r <;>
    cases hg : t.nodes r <;> simp [hz, hg]

/-- A call of `nextChild` changes only the visited flags of the frame. -/
theorem nextChild_parent (t : SparseMerkleTree) (f : iteratorState) :
    (nextChild t f).parent.hash = f.hash ∧ (nextChild t f).parent.rawNode = f.rawNode := by
  unfold nextChild
  cases hleaf : t.th.isLeaf f.rawNode <;> cases hv : f.leftVisited <;>
    by_cases hz : t.th.zeroValue = (t.th.parseNode f.rawNode).1 <;>
    cases hg : t.nodes (t.th.parseNode f.rawNode).1 <;>
    simp [hz, hg, nextChildRight_parent]

/-- The frame `nextChild` hands out for pushing is a non-zero child of an inner
frame, with the blob the node store holds for it. -/
theorem nextChild_child (t : SparseMerkleTree) (f c : iteratorState)
    (h : (nextChild t f).out = .ok (c, false)) :
    t.th.isLeaf f.rawNode = false ∧
    ((c.hash = (t.th.parseNode f.rawNode).1 ∧ (t.th.parseNode f.rawNode).1 ≠ t.th.zeroValue) ∨
     (c.hash = (t.th.parseNode f.rawNode).2 ∧ (t.th.parseNode f.rawNode).2 ≠ t.th.zeroValue)) ∧
    t.nodes c.hash = .ok c.rawNode := by
  unfold nextChild at h
  cases hleaf : t.th.isLeaf f.rawNode
  · refine ⟨rfl, ?_⟩
    simp only [hleaf, Bool.false_eq_true, if_false] at h
    have right : ∀ g, (nextChildRight t (t.th.parseNode f.rawNode).2 g).out = .ok (c, false) →
        ((c.hash = (t.th.parseNode f.rawNode).1 ∧
            (t.th.parseNode f.rawNode).1 ≠ t.th.zeroValue) ∨
         (c.hash = (t.th.parseNode f.rawNode).2 ∧
            (t.th.parseNode f.rawNode).2 ≠ t.th.zeroValue)) ∧
        t.nodes c.hash = .ok c.rawNode := by
      intro g hg
      obtain ⟨h1, h2, h3⟩ := nextChildRight_child t _ g c hg
      exact ⟨Or.inr ⟨h1, h2⟩, by rw [h1]; exact h3⟩
    cases hv : f.leftVisited
    · by_cases hz : t.th.zeroValue = (t.th.parseNode f.rawNode).1
      · simp only [hv, hz, Bool.not_false, if_true, beq_self_eq_true, Bool.not_true,
          Bool.false_eq_true, if_false] at h
        exact right _ h
      · cases hg : t.nodes (t.th.parseNode f.rawNode).1 <;> simp [hv, hz, hg] at h
        subst h
        exact ⟨Or.inl ⟨rfl, fun e => hz e.symm⟩, hg⟩
    · simp only [hv, Bool.not_true, Bool.false_eq_true, if_false] at h
      exact right _ h
  · simp [hleaf] at h

theorem Fetched_parent (t : SparseMerkleTree) (f : iteratorState) (h : Fetched t f) :
    Fetched t (nextChild t f).parent := by
  unfold Fetched at h ⊢
  rw [(nextChild_parent t f).1, (nextChild_parent t f).2]
  exact h

theorem Fetched_child (t : SparseMerkleTree) (f c : iteratorState) (h : Fetched t f)
    (hc : (nextChild t f).out = .ok (c, false)) : Fetched t c := by
  obtain ⟨hleaf, hside, hget⟩ := nextChild_child t f c hc
  refine ⟨?_, hget⟩
  rcases hside with ⟨e, hz⟩ | ⟨e, hz⟩
  · rw [e]; exact Reach.left h.1 h.2 hleaf hz
  · rw [e]; exact Reach.right h.1 h.2 hleaf hz

theorem forLoop_fetched (t : SparseMerkleTree) (stack : List iteratorState)
    (h : ∀ f ∈ stack, Fetched t f) :
    ∀ fuel, (∀ f ∈ (forLoop t fuel stack).1, Fetched t f) ∧
      ∀ c, (forLoop t fuel stack).2 = .ok c → Fetched t c := by
  induction stack using List.reverseRecOn with
  | nil => intro fuel; simp [forLoop_nil]
  | append_singleton rest f ih =>
    intro fuel
    have hrest : ∀ g ∈ rest, Fetched t g := fun g hg => h g (by simp [hg])
    have hf : Fetched t f := h f (by simp)
    have hstack : ∀ g ∈ rest ++ [(nextChild t f).parent], Fetched t g := by
      intro g hg
      rcases List.mem_append.1 hg with hg | hg
      · exact hrest g hg
      · rw [List.mem_singleton.1 hg]; exact Fetched_parent t f hf
    cases fuel with
    | zero => exact ⟨by simpa [forLoop] using h, by simp [forLoop]⟩
    | succ k =>
      rw [forLoop_concat]
      rcases hout : (nextChild t f).out with e | ⟨c, b⟩
      · exact ⟨hstack, by simp⟩
      · cases b
        · refine ⟨hstack, ?_⟩
          intro c1 hc1
          simp only [Bool.not_false, if_true, Except.ok.injEq] at hc1
          subst hc1
          exact Fetched_child t f c hf hout
        · simpa using ih hrest k

theorem Next_fetched (t : SparseMerkleTree) (i : iterator) (h : ∀ f ∈ i.stack, Fetched t f) :
    ∀ f ∈ (Next t i).2.stack, Fetched t f := by
  unfold Next
  cases herr : i.err with
  | some e => simpa using h
  | none =>
    by_cases hs : i.stack = []
    · rcases hroot : t.nodes t.root with e | raw
      · simp [next, hs, init, hroot]
      · simp [next, hs, init, hroot, push, Fetched, Reach.root]
    · have hlen : i.stack.length ≠ 0 := by simpa using hs
      have hl := forLoop_fetched t i.stack h i.stack.length
      simp only [next, hlen, if_false, Bool.not_true, Bool.false_eq_true]
      rcases hres : forLoop t i.stack.length i.stack with ⟨s1, e | node⟩
      · rw [hres] at hl
        simpa using hl.1
      · rw [hres] at hl
        intro f hf
        simp only [push, List.mem_append, List.mem_singleton] at hf
        rcases hf with hf | hf
        · exact hl.1 f hf
        · rw [hf]; exact hl.2 node rfl

theorem Next_agree (t1 t2 : SparseMerkleTree) (hth : t1.th = t2.th) (hroot : t1.root = t2.root)
    (hagree : ∀ d, Reach t1 d → t1.nodes d = t2.nodes d)
    (i : iterator) (h : ∀ f ∈ i.stack, Fetched t1 f) : Next t1 i = Next t2 i := by
  by_cases hs : i.stack = []
  · have hr := hagree t1.root Reach.root
    unfold Next
    cases i.err with
    | some e => rfl
    | none => simp [next, hs, init, ← hroot, ← hr]
  · refine Next_congr t1 t2 i hs (fun f hf => ?_)
    obtain ⟨hreach, hget⟩ := h f hf
    exact nextChild_congr t1 t2 hth f
      (fun hleaf _ hz => hagree _ (Reach.left hreach hget hleaf (fun e => hz e.symm)))
      (fun hleaf _ hz => hagree _ (Reach.right hreach hget hleaf (fun e => hz e.symm)))

theorem NextN_agree (t1 t2 : SparseMerkleTree) (hth : t1.th = t2.th) (hroot : t1.root = t2.root)
    (hagree : ∀ d, Reach t1 d → t1.nodes d = t2.nodes d) :
    ∀ (n : Nat) (i : iterator), (∀ f ∈ i.stack, Fetched t1 f) →
      NextN t1 n i = NextN t2 n i ∧ flags t1 n i = flags t2 n i := by
  intro n
  induction n with
  | zero => intro i _; simp [NextN, flags]
  | succ n ih =>
    intro i h
    have e := Next_agree t1 t2 hth hroot hagree i h
    have := ih (Next t1 i).2 (Next_fetched t1 i h)
    simp only [NextN, flags]
    rw [← e]
    exact ⟨this.1, by rw [this.2]⟩

/-- C9: the traversal depends only on what is reachable from the root: when
two trees share the tree hasher and the root digest and their node stores
agree on every digest reachable from the root through non-zero child
references, fresh iterators over them return the same `Next()` flags, are in
the same state after every call, and show the same `NodeBlob()`, `Leaf()` and
`LeafKey()`. -/
theorem traversal_of_reachable (t1 t2 : SparseMerkleTree) (hth : t1.th = t2.th)
    (hroot : t1.root = t2.root)
    (hagree : ∀ d, Reach t1 d → t1.nodes d = t2.nodes d) (n : Nat) :
    flags t1 n fresh = flags t2 n fresh ∧
    NextN t1 n fresh = NextN t2 n fresh ∧
    NodeBlob (NextN t1 n fresh) = NodeBlob (NextN t2 n fresh) ∧
    Leaf t1 (NextN t1 n fresh) = Leaf t2 (NextN t2 n fresh) ∧
    LeafKey t1 (NextN t1 n fresh) = LeafKey t2 (NextN t2 n fresh) := by
  have h := NextN_agree t1 t2 hth hroot hagree n fresh (by simp [fresh])
  refine ⟨h.2, h.1, by rw [h.1], ?_, ?_⟩
  · rw [h.1]; simp [Leaf, hth]
  · rw [h.1]; simp [LeafKey, hth]

theorem sparse_reach (d : Bytes) (h : Reach sparseTrie d) : d = [9] ∨ d = [4] := by
  induction h with
  | root => exact Or.inl rfl
  | @left d raw _ hget hleaf hz ih =>
    rcases ih with rfl | rfl
    · have : raw = [1, 0, 4] := by
        simpa [sparseTrie, mapGet, List.lookup] using hget.symm
      subst this
      exact absurd rfl hz
    · have : raw = [0, 7, 8] := by
        simpa [sparseTrie, mapGet, List.lookup] using hget.symm
      subst this
      simp [sparseTrie, sampleHasher] at hleaf
  | @right d raw _ hget hleaf hz ih =>
    rcases ih with rfl | rfl
    · have : raw = [1, 0, 4] := by
        simpa [sparseTrie, mapGet, List.lookup] using hget.symm
      subst this
      exact Or.inr rfl
    · have : raw = [0, 7, 8] := by
        simpa [sparseTrie, mapGet, List.lookup] using hget.symm
      subst this
      simp [sparseTrie, sampleHasher] at hleaf

/-- Witness of C9: the sparse tree and the same tree over a store that also
holds an orphan and a blob under the zero value. -/
theorem traversal_of_reachable_witness :
    sparseTrie.nodes [2] ≠ pollutedTrie.nodes [2] ∧
    flags sparseTrie 3 fresh = flags pollutedTrie 3 fresh ∧
    NextN sparseTrie 2 fresh = NextN pollutedTrie 2 fresh :=
  have hagree : ∀ d, Reach sparseTrie d → sparseTrie.nodes d = pollutedTrie.nodes d := by
    intro d hd
    rcases sparse_reach d hd with rfl | rfl <;> decide
  ⟨by decide,
   (traversal_of_reachable sparseTrie pollutedTrie rfl rfl hagree 3).1,
   (traversal_of_reachable sparseTrie pollutedTrie rfl rfl hagree 2).2.1⟩

/-! ## Options -/

/-- C11: applying `SetPathHasher(ph)` to a configuration yields one whose path
hasher is `ph` and whose other fields are untouched; so applying it twice is
applying it once, and of two successive `SetPathHasher` options the last wins. -/
theorem SetPathHasher_frame {PathHasher Other : Type} (ph ph2 : PathHasher)
    (c : BaseSMT PathHasher Other) :
    (SetPathHasher ph c).ph = ph ∧ (SetPathHasher ph c).other = c.other ∧
    SetPathHasher ph (SetPathHasher ph c) = SetPathHasher ph c ∧
    SetPathHasher ph2 (SetPathHasher ph c) = SetPathHasher ph2 c ∧
    (SetPathHasher ph2 (SetPathHasher ph c)).ph = ph2 :=
  ⟨rfl, rfl, rfl, rfl, rfl⟩

/-! ## The step rule of `nextChild` -/

/-- C12: the step rule of `nextChild`.  On an inner frame with
`parseNode(rawNode) = (l, r)`: an unvisited, non-zero, stored left child is
returned as a new frame with `pop = false` and the parent's `leftVisited` is
set; with the left child visited or zero, an unvisited, non-zero, stored right
child is returned likewise and the parent's `rightVisited` is set; with both
children visited or zero the call signals `pop = true`.  On a leaf frame it
signals `pop = true` whatever the node store holds. -/
theorem nextChild_step_rule (t : SparseMerkleTree) (f : iteratorState) :
    (t.th.isLeaf f.rawNode = false → f.leftVisited = false →
      (t.th.parseNode f.rawNode).1 ≠ t.th.zeroValue →
      ∀ raw, t.nodes (t.th.parseNode f.rawNode).1 = .ok raw →
      nextChild t f =
        { parent := { f with leftVisited := true },
          out := .ok (⟨(t.th.parseNode f.rawNode).1, raw, false, false⟩, false) }) ∧
    (t.th.isLeaf f.rawNode = false →
      (f.leftVisited = true ∨ (t.th.parseNode f.rawNode).1 = t.th.zeroValue) →
      f.rightVisited = false → (t.th.parseNode f.rawNode).2 ≠ t.th.zeroValue →
      ∀ raw, t.nodes (t.th.parseNode f.rawNode).2 = .ok raw →
      nextChild t f =
        { parent := { f with leftVisited := true, rightVisited := true },
          out := .ok (⟨(t.th.parseNode f.rawNode).2, raw, false, false⟩, false) }) ∧
    (t.th.isLeaf f.rawNode = false →
      (f.leftVisited = true ∨ (t.th.parseNode f.rawNode).1 = t.th.zeroValue) →
      (f.rightVisited = true ∨ (t.th.parseNode f.rawNode).2 = t.th.zeroValue) →
      nextChild t f =
        { parent := { f with leftVisited := true, rightVisited := true },
          out := .ok ({ f with leftVisited := true, rightVisited := true }, true) }) ∧
    (t.th.isLeaf f.rawNode = true →
      ∀ t2 : SparseMerkleTree, t2.th = t.th →
      nextChild t2 f = { parent := f, out := .ok (f, true) }) := by
  obtain ⟨hash, rawNode, lv, rv⟩ := f
  refine ⟨?_, ?_, ?_, ?_⟩
  · intro hleaf hv hz raw hg
    simp only at hleaf hv hz hg
    subst hv
    have hz1 : ¬ t.th.zeroValue = (t.th.parseNode rawNode).1 := fun e => hz e.symm
    simp [nextChild, hleaf, hz1, hg]
  · intro hleaf hl hv hz raw hg
    simp only at hleaf hl hv hz hg
    subst hv
    have hz1 : ¬ t.th.zeroValue = (t.th.parseNode rawNode).2 := fun e => hz e.symm
    rcases hl with rfl | hl
    · simp [nextChild, nextChildRight, hleaf, hz1, hg]
    · cases lv <;> simp [nextChild, nextChildRight, hleaf, hl, hz1, hg]
  · intro hleaf hl hr
    simp only at hleaf hl hr
    rcases hl with rfl | hl <;> rcases hr with rfl | hr
    · simp [nextChild, nextChildRight, hleaf]
    · cases rv <;> simp [nextChild, nextChildRight, hleaf, hr]
    · cases lv <;> simp [nextChild, nextChildRight, hleaf, hl]
    · cases lv <;> cases rv <;> simp [nextChild, nextChildRight, hleaf, hl, hr]
  · intro hleaf t2 hth
    simp only at hleaf
    simp [nextChild, hth, hleaf]

/-- Witness of C12 on the sample tree: the root frame yields its left child,
then its right child, then pops; the left leaf pops over an empty store. -/
theorem nextChild_step_rule_witness :
    nextChild sampleTrie ⟨[9], [1, 3, 4], false, false⟩ =
      { parent := ⟨[9], [1, 3, 4], true, false⟩,
        out := .ok (⟨[3], [0, 5, 6], false, false⟩, false) } ∧
    nextChild sampleTrie ⟨[9], [1, 3, 4], true, false⟩ =
      { parent := ⟨[9], [1, 3, 4], true, true⟩,
        out := .ok (⟨[4], [1, 0, 7], false, false⟩, false) } ∧
    nextChild sampleTrie ⟨[9], [1, 3, 4], true, true⟩ =
      { parent := ⟨[9], [1, 3, 4], true, true⟩,
        out := .ok (⟨[9], [1, 3, 4], true, true⟩, true) } ∧
    nextChild emptyTrie ⟨[3], [0, 5, 6], false, false⟩ =
      { parent := ⟨[3], [0, 5, 6], false, false⟩,
        out := .ok (⟨[3], [0, 5, 6], false, false⟩, true) } :=
  ⟨(nextChild_step_rule sampleTrie ⟨[9], [1, 3, 4], false, false⟩).1
      (by decide) (by decide) (by decide) [0, 5, 6] (by decide),
   (nextChild_step_rule sampleTrie ⟨[9], [1, 3, 4], true, false⟩).2.1
      (by decide) (by decide) (by decide) (by decide) [1, 0, 7] (by decide),
   (nextChild_step_rule sampleTrie ⟨[9], [1, 3, 4], true, true⟩).2.2.1
      (by decide) (by decide) (by decide),
   (nextChild_step_rule sampleTrie ⟨[3], [0, 5, 6], false, false⟩).2.2.2
      (by decide) emptyTrie rfl⟩

/-! ## Leaves on top of the stack -/

/-- C13, as stated, fails: with the left leaf of the sample tree on top, one
call of `Next()` pops the leaf, examines the root below it in the same call
and pushes the root's right child: the stack is as long as before and has a
new top frame. -/
theorem Next_on_leaf_pushes :
    sampleTrie.th.isLeaf [0, 5, 6] = true ∧
    sampleAtLeaf.stack.getLast? = some ⟨[3], [0, 5, 6], false, false⟩ ∧
    Next sampleTrie sampleAtLeaf =
      (true, { stack := [⟨[9], [1, 3, 4], true, true⟩, ⟨[4], [1, 0, 7], false, false⟩],
               err := none }) ∧
    (Next sampleTrie sampleAtLeaf).2.stack.length = sampleAtLeaf.stack.length := by
  decide

/-- A stack consists of finished frames only, or has a topmost frame that is
not finished, with finished frames above it. -/
theorem split_done (t : SparseMerkleTree) (stack : List iteratorState) :
    (∀ g ∈ stack, Done t g) ∨
    ∃ base p done, stack = base ++ [p] ++ done ∧ (∀ g ∈ done, Done t g) ∧ ¬ Done t p := by
  induction stack using List.reverseRecOn with
  | nil => exact Or.inl (by simp)
  | append_singleton r x ih =>
    by_cases hx : Done t x
    · rcases ih with h | ⟨base, p, done, hr, hd, hp⟩
      · left
        intro g hg
        rcases List.mem_append.1 hg with hg | hg
        · exact h g hg
        · rw [List.mem_singleton.1 hg]; exact hx
      · right
        refine ⟨base, p, done ++ [x], by simp [hr], ?_, hp⟩
        intro g hg
        rcases List.mem_append.1 hg with hg | hg
        · exact hd g hg
        · rw [List.mem_singleton.1 hg]; exact hx
    · exact Or.inr ⟨r, x, [], by simp, by simp, hx⟩

/-- C13, amended: when the top-of-stack frame is a leaf, a single call of
`Next()` pops that frame and goes on, in the same call, with the remaining
stack entries: `Next()` behaves as the pop loop run on the stack below the
leaf.  It drops the finished frames and examines the first frame that has a
child left.  If the lookup of that child succeeds, the child is pushed and
`Next()` returns true; if the lookup fails, `Next()` returns false with
`ErrNodeNotFound` and that frame stays on top; if every remaining frame is
finished, it empties the stack and returns false with `ErrIteratorEnd`.
One of the three always happens. -/
theorem Next_on_leaf (t : SparseMerkleTree) (rest : List iteratorState) (f : iteratorState)
    (hleaf : t.th.isLeaf f.rawNode = true) :
    Next t { stack := rest ++ [f], err := none } =
      (match forLoop t rest.length rest with
       | (stack1, .error err) => (false, { stack := stack1, err := some err })
       | (stack1, .ok node) => (true, { stack := stack1 ++ [node], err := none })) ∧
    (∀ base done p c, rest = base ++ [p] ++ done → (∀ g ∈ done, Done t g) →
      (nextChild t p).out = .ok (c, false) →
      Next t { stack := rest ++ [f], err := none } =
        (true, { stack := base ++ [(nextChild t p).parent] ++ [c], err := none })) ∧
    (∀ base done p e, rest = base ++ [p] ++ done → (∀ g ∈ done, Done t g) →
      (nextChild t p).out = .error e →
      Next t { stack := rest ++ [f], err := none } =
        (false, { stack := base ++ [(nextChild t p).parent],
                  err := some .ErrNodeNotFound })) ∧
    ((∀ g ∈ rest, Done t g) →
      Next t { stack := rest ++ [f], err := none } =
        (false, { stack := [], err := some .ErrIteratorEnd })) ∧
    ((∃ base done p c, rest = base ++ [p] ++ done ∧ (∀ g ∈ done, Done t g) ∧
        (nextChild t p).out = .ok (c, false) ∧
        Next t { stack := rest ++ [f], err := none } =
          (true, { stack := base ++ [(nextChild t p).parent] ++ [c], err := none })) ∨
     (∃ base done p e, rest = base ++ [p] ++ done ∧ (∀ g ∈ done, Done t g) ∧
        (nextChild t p).out = .error e ∧
        Next t { stack := rest ++ [f], err := none } =
          (false, { stack := base ++ [(nextChild t p).parent],
                    err := some .ErrNodeNotFound })) ∨
     ((∀ g ∈ rest, Done t g) ∧
        Next t { stack := rest ++ [f], err := none } =
          (false, { stack := [], err := some .ErrIteratorEnd }))) := by
  have hd : Done t f := Done_leaf t f hleaf
  have above : ∀ done : List iteratorState, (∀ g ∈ done, Done t g) →
      ∀ g ∈ done ++ [f], Done t g := by
    intro done hdone g hg
    rcases List.mem_append.1 hg with hg | hg
    · exact hdone g hg
    · rw [List.mem_singleton.1 hg]; exact hd
  have pushes : ∀ base done p c, rest = base ++ [p] ++ done → (∀ g ∈ done, Done t g) →
      (nextChild t p).out = .ok (c, false) →
      Next t { stack := rest ++ [f], err := none } =
        (true, { stack := base ++ [(nextChild t p).parent] ++ [c], err := none }) := by
    intro base done p c hrest hdone hp
    subst hrest
    have := Next_push t base (done ++ [f]) p (nextChild t p).parent c (above done hdone)
      (by rw [← hp])
    simpa [List.append_assoc] using this
  have fails : ∀ base done p e, rest = base ++ [p] ++ done → (∀ g ∈ done, Done t g) →
      (nextChild t p).out = .error e →
      Next t { stack := rest ++ [f], err := none } =
        (false, { stack := base ++ [(nextChild t p).parent],
                  err := some .ErrNodeNotFound }) := by
    intro base done p e hrest hdone hp
    subst hrest
    have he := nextChild_error t p e hp
    subst he
    have := Next_fail t base (done ++ [f]) p (nextChild t p).parent .ErrNodeNotFound
      (above done hdone) (by rw [← hp])
    simpa [List.append_assoc] using this
  have ends : (∀ g ∈ rest, Done t g) →
      Next t { stack := rest ++ [f], err := none } =
        (false, { stack := [], err := some .ErrIteratorEnd }) :=
    fun hall => Next_end t (rest ++ [f]) (by simp) (above rest hall)
  refine ⟨?_, pushes, fails, ends, ?_⟩
  · rw [Next_stack _ _ (by simp), forLoop_done t rest [f] (by simpa using hd)]
  · rcases split_done t rest with hall | ⟨base, p, done, hrest, hdone, hp⟩
    · exact Or.inr (Or.inr ⟨hall, ends hall⟩)
    · rcases hout : (nextChild t p).out with e | ⟨c, b⟩
      · exact Or.inr (Or.inl ⟨base, done, p, e, hrest, hdone, hout,
          fails base done p e hrest hdone hout⟩)
      · cases b
        · exact Or.inl ⟨base, done, p, c, hrest, hdone, hout,
            pushes base done p c hrest hdone hout⟩
        · exact absurd ⟨c, hout⟩ hp

/-- Witness of the amended C13, one for each outcome: on the sample tree the
call on the left leaf pushes the right child of the root; over the store that
lacks that child the same call fails with `ErrNodeNotFound` and leaves the
root frame; on the last leaf of the sample tree the call ends the iteration. -/
theorem Next_on_leaf_witness :
    Next sampleTrie { stack := [⟨[9], [1, 3, 4], true, false⟩] ++
        [⟨[3], [0, 5, 6], false, false⟩], err := none } =
      (true, { stack := [] ++ [⟨[9], [1, 3, 4], true, true⟩] ++
        [⟨[4], [1, 0, 7], false, false⟩], err := none }) ∧
    Next halfTrie { stack := [⟨[9], [1, 3, 4], true, false⟩] ++
        [⟨[3], [0, 5, 6], false, false⟩], err := none } =
      (false, { stack := [] ++ [⟨[9], [1, 3, 4], true, false⟩],
                err := some .ErrNodeNotFound }) ∧
    Next sampleTrie { stack := [⟨[9], [1, 3, 4], true, true⟩, ⟨[4], [1, 0, 7], true, true⟩] ++
        [⟨[7], [0, 8, 2], false, false⟩], err := none } =
      (false, { stack := [], err := some .ErrIteratorEnd }) :=
  ⟨(Next_on_leaf sampleTrie [⟨[9], [1, 3, 4], true, false⟩] ⟨[3], [0, 5, 6], false, false⟩
      (by decide)).2.1 [] [] ⟨[9], [1, 3, 4], true, false⟩
      ⟨[4], [1, 0, 7], false, false⟩ rfl (by simp) (by decide),
   (Next_on_leaf halfTrie [⟨[9], [1, 3, 4], true, false⟩] ⟨[3], [0, 5, 6], false, false⟩
      (by decide)).2.2.1 [] [] ⟨[9], [1, 3, 4], true, false⟩ .ErrNodeNotFound rfl (by simp)
      (by decide),
   (Next_on_leaf sampleTrie [⟨[9], [1, 3, 4], true, true⟩, ⟨[4], [1, 0, 7], true, true⟩]
      ⟨[7], [0, 8, 2], false, false⟩ (by decide)).2.2.2.1
      (by
        intro g hg
        simp only [List.mem_cons, List.mem_singleton, List.not_mem_nil, or_false] at hg
        rcases hg with rfl | rfl
        · exact ⟨⟨[9], [1, 3, 4], true, true⟩, by decide⟩
        · exact ⟨⟨[4], [1, 0, 7], true, true⟩, by decide⟩)⟩

/-! ## Blobs that are not leaves -/

theorem forLoop_error (t : SparseMerkleTree) (stack : List iteratorState) :
    ∀ fuel e, (forLoop t fuel stack).2 = .error e →
      e = .ErrNodeNotFound ∨ e = .ErrIteratorEnd := by
  induction stack using List.reverseRecOn with
  | nil => intro fuel e h; simp [forLoop_nil] at h; exact Or.inr h.symm
  | append_singleton rest f ih =>
    intro fuel e h
    cases fuel with
    | zero => simp [forLoop] at h; exact Or.inr h.symm
    | succ k =>
      rw [forLoop_concat] at h
      rcases hout : (nextChild t f).out with e1 | ⟨c, b⟩
      · rw [hout] at h
        simp only [Except.error.injEq] at h
        subst h
        exact Or.inl (nextChild_error t f e1 hout)
      · rw [hout] at h
        cases b
        · simp at h
        · exact ih k e (by simpa using h)

/-- C14, as stated, fails: the root blob `[7, 3, 4]` is neither a leaf nor an
inner encoding of the sample hasher (it has the length of one, so `parseNode`
slices within bounds), yet the call of `Next()` that examines its frame
returns true and pushes the node its second byte names; the traversal then
follows the third byte as well and ends with `ErrIteratorEnd` after three
nodes. -/
theorem malformed_blob_continues :
    malformedTrie.nodes malformedTrie.root = .ok [7, 3, 4] ∧
    malformedTrie.th.isLeaf [7, 3, 4] = false ∧ sampleIsInner [7, 3, 4] = false ∧
    ([7, 3, 4] : Bytes).length = 3 ∧
    Next malformedTrie { stack := [⟨[9], [7, 3, 4], false, false⟩], err := none } =
      (true, { stack := [⟨[9], [7, 3, 4], true, false⟩, ⟨[3], [0, 5, 6], false, false⟩],
               err := none }) ∧
    (visited malformedTrie 4 fresh).map NodeBlob =
      [some [7, 3, 4], some [0, 5, 6], some [0, 7, 8]] ∧
    NextN malformedTrie 4 fresh = { stack := [], err := some .ErrIteratorEnd } := by
  decide

/-- A frame whose next child is ready for pushing, on top of the stack. -/
theorem Next_top_push (t : SparseMerkleTree) (rest : List iteratorState)
    (p p1 c : iteratorState) (hp : nextChild t p = { parent := p1, out := .ok (c, false) }) :
    Next t { stack := rest ++ [p], err := none } =
      (true, { stack := rest ++ [p1] ++ [c], err := none }) := by
  simpa using Next_push t rest [] p p1 c (by simp) hp

/-- A frame whose child lookup fails, on top of the stack. -/
theorem Next_top_fail (t : SparseMerkleTree) (rest : List iteratorState)
    (p p1 : iteratorState) (e : Error) (hp : nextChild t p = { parent := p1, out := .error e }) :
    Next t { stack := rest ++ [p], err := none } =
      (false, { stack := rest ++ [p1], err := some e }) := by
  simpa using Next_fail t rest [] p p1 e (by simp) hp

/-- C14, amended: the iterator declares and stores no `MalformedNode`
condition.  A fetched blob that `isLeaf` rejects and on which `parseNode`
returns the references `(l, r)` is treated as an inner node, whether or not
it is an Inner encoding, and the `Next()` call that examines its frame
continues with the two references: it pushes the node stored under `l` when
`l` is unvisited and non-zero, otherwise the node stored under `r` when `r`
is unvisited and non-zero, and pops the frame when both are visited or zero;
a failed lookup of `l` or of `r` ends the traversal with `ErrNodeNotFound`.
The only terminal conditions such a call can store are `ErrNodeNotFound` and
`ErrIteratorEnd`. -/
theorem non_leaf_is_inner (t : SparseMerkleTree) (rest : List iteratorState)
    (f : iteratorState) (l r : Bytes) (hleaf : t.th.isLeaf f.rawNode = false)
    (hparse : t.th.parseNode f.rawNode = (l, r)) :
    (f.leftVisited = false → l ≠ t.th.zeroValue → ∀ raw, t.nodes l = .ok raw →
      Next t { stack := rest ++ [f], err := none } =
        (true, { stack := rest ++ [{ f with leftVisited := true }] ++
                   [⟨l, raw, false, false⟩], err := none })) ∧
    (f.leftVisited = false → l ≠ t.th.zeroValue → ∀ e, t.nodes l = .error e →
      Next t { stack := rest ++ [f], err := none } =
        (false, { stack := rest ++ [f], err := some .ErrNodeNotFound })) ∧
    ((f.leftVisited = true ∨ l = t.th.zeroValue) → f.rightVisited = false →
      r ≠ t.th.zeroValue → ∀ raw, t.nodes r = .ok raw →
      Next t { stack := rest ++ [f], err := none } =
        (true, { stack := rest ++ [{ f with leftVisited := true, rightVisited := true }] ++
                   [⟨r, raw, false, false⟩], err := none })) ∧
    ((f.leftVisited = true ∨ l = t.th.zeroValue) → f.rightVisited = false →
      r ≠ t.th.zeroValue → ∀ e, t.nodes r = .error e →
      Next t { stack := rest ++ [f], err := none } =
        (false, { stack := rest ++ [{ f with leftVisited := true }],
                  err := some .ErrNodeNotFound })) ∧
    ((f.leftVisited = true ∨ l = t.th.zeroValue) →
      (f.rightVisited = true ∨ r = t.th.zeroValue) →
      Next t { stack := rest ++ [f], err := none } =
        (match forLoop t rest.length rest with
         | (stack1, .error err) => (false, { stack := stack1, err := some err })
         | (stack1, .ok node) => (true, { stack := stack1 ++ [node], err := none }))) ∧
    ((Next t { stack := rest ++ [f], err := none }).1 = false →
      (Next t { stack := rest ++ [f], err := none }).2.err = some .ErrNodeNotFound ∨
      (Next t { stack := rest ++ [f], err := none }).2.err = some .ErrIteratorEnd) := by
  have term : (Next t { stack := rest ++ [f], err := none }).1 = false →
      (Next t { stack := rest ++ [f], err := none }).2.err = some .ErrNodeNotFound ∨
      (Next t { stack := rest ++ [f], err := none }).2.err = some .ErrIteratorEnd := by
    rw [Next_stack _ _ (by simp)]
    have he := forLoop_error t (rest ++ [f]) (rest ++ [f]).length
    rcases hres : forLoop t (rest ++ [f]).length (rest ++ [f]) with ⟨s1, e | node⟩
    · intro _
      rw [hres] at he
      rcases he e rfl with h | h <;> simp [h]
    · simp
  obtain ⟨hash, rawNode, lv, rv⟩ := f
  simp only at hleaf hparse
  have hl : (t.th.parseNode rawNode).1 = l := by rw [hparse]
  have hr : (t.th.parseNode rawNode).2 = r := by rw [hparse]
  refine ⟨?_, ?_, ?_, ?_, ?_, term⟩
  · intro hv hz raw hg
    simp only at hv
    subst hv
    have hz1 : ¬ t.th.zeroValue = l := fun e => hz e.symm
    exact Next_top_push t rest _ _ _ (by simp [nextChild, hleaf, hl, hz1, hg])
  · intro hv hz e hg
    simp only at hv
    subst hv
    have hz1 : ¬ t.th.zeroValue = l := fun e => hz e.symm
    exact Next_top_fail t rest _ _ _ (by simp [nextChild, hleaf, hl, hz1, hg])
  · intro hlv hv hz raw hg
    simp only at hlv hv
    subst hv
    have hz1 : ¬ t.th.zeroValue = r := fun e => hz e.symm
    apply Next_top_push t rest
    rcases hlv with rfl | hlv
    · simp [nextChild, nextChildRight, hleaf, hr, hz1, hg]
    · cases lv <;> simp [nextChild, nextChildRight, hleaf, hl, hr, hlv, hz1, hg]
  · intro hlv hv hz e hg
    simp only at hlv hv
    subst hv
    have hz1 : ¬ t.th.zeroValue = r := fun e => hz e.symm
    apply Next_top_fail t rest
    rcases hlv with rfl | hlv
    · simp [nextChild, nextChildRight, hleaf, hr, hz1, hg]
    · cases lv <;> simp [nextChild, nextChildRight, hleaf, hl, hr, hlv, hz1, hg]
  · intro hlv hrv
    simp only at hlv hrv
    have hd : Done t ⟨hash, rawNode, lv, rv⟩ := by
      refine ⟨⟨hash, rawNode, true, true⟩, ?_⟩
      rcases hlv with rfl | hlv <;> rcases hrv with rfl | hrv
      · simp [nextChild, nextChildRight, hleaf]
      · cases rv <;> simp [nextChild, nextChildRight, hleaf, hr, hrv]
      · cases lv <;> simp [nextChild, nextChildRight, hleaf, hl, hlv]
      · cases lv <;> cases rv <;> simp [nextChild, nextChildRight, hleaf, hl, hr, hlv, hrv]
    rw [Next_stack _ _ (by simp), forLoop_done t rest [_] (by simpa using hd)]

/-- Witness of the amended C14 on the malformed root blob `[7, 3, 4]`, for
which `parseNode` returns `([3], [4])`: the call on the fresh frame pushes
the node under `[3]`, the call on the frame with the left side visited pushes
the node under `[4]`, the frame with both sides visited is popped, and over
the store without `[4]` the lookup of the right reference fails. -/
theorem non_leaf_is_inner_witness :
    Next malformedTrie { stack := [] ++ [⟨[9], [7, 3, 4], false, false⟩], err := none } =
      (true, { stack := [] ++ [⟨[9], [7, 3, 4], true, false⟩] ++
                 [⟨[3], [0, 5, 6], false, false⟩], err := none }) ∧
    Next malformedTrie { stack := [] ++ [⟨[9], [7, 3, 4], true, false⟩], err := none } =
      (true, { stack := [] ++ [⟨[9], [7, 3, 4], true, true⟩] ++
                 [⟨[4], [0, 7, 8], false, false⟩], err := none }) ∧
    Next malformedTrie { stack := [] ++ [⟨[9], [7, 3, 4], true, true⟩], err := none } =
      (false, { stack := [], err := some .ErrIteratorEnd }) ∧
    Next halfTrie { stack := [] ++ [⟨[9], [7, 3, 4], true, false⟩], err := none } =
      (false, { stack := [] ++ [⟨[9], [7, 3, 4], true, false⟩],
                err := some .ErrNodeNotFound }) :=
  ⟨(non_leaf_is_inner malformedTrie [] ⟨[9], [7, 3, 4], false, false⟩ [3] [4]
      (by decide) (by decide)).1 (by decide) (by decide) [0, 5, 6] (by decide),
   (non_leaf_is_inner malformedTrie [] ⟨[9], [7, 3, 4], true, false⟩ [3] [4]
      (by decide) (by decide)).2.2.1 (by decide) (by decide) (by decide) [0, 7, 8]
      (by decide),
   (non_leaf_is_inner malformedTrie [] ⟨[9], [7, 3, 4], true, true⟩ [3] [4]
      (by decide) (by decide)).2.2.2.2.1 (by decide) (by decide),
   (non_leaf_is_inner halfTrie [] ⟨[9], [7, 3, 4], true, false⟩ [3] [4]
      (by decide) (by decide)).2.2.2.1 (by decide) (by decide) (by decide)
      (.storeFailure 1) (by decide)⟩

/-! ## The shape of the stack -/

theorem Linked_below (t : SparseMerkleTree) (f : iteratorState) :
    ∀ rest, Linked t (rest ++ [f]) → Linked t rest
  | [], _ => trivial
  | [_], _ => trivial
  | a :: b :: r, h => by
    simp only [List.cons_append, Linked] at h ⊢
    exact ⟨h.1, Linked_below t f (b :: r) h.2⟩

theorem Linked_top (t : SparseMerkleTree) (f g : iteratorState) (hg : g.hash = f.hash) :
    ∀ rest, Linked t (rest ++ [f]) → Linked t (rest ++ [g])
  | [], _ => trivial
  | [a], h => by
    simp only [List.cons_append, List.nil_append, Linked, ChainLink, and_true] at h ⊢
    rw [hg]; exact h
  | a :: b :: r, h => by
    simp only [List.cons_append, Linked] at h ⊢
    exact ⟨h.1, Linked_top t f g hg (b :: r) h.2⟩

theorem Linked_push (t : SparseMerkleTree) (p c : iteratorState) (hl : ChainLink t p c) :
    ∀ rest, Linked t (rest ++ [p]) → Linked t (rest ++ [p] ++ [c])
  | [], _ => by simpa [Linked] using hl
  | [a], h => by
    simp only [List.cons_append, List.nil_append, Linked, and_true] at h ⊢
    exact ⟨h, hl⟩
  | a :: b :: r, h => by
    simp only [List.cons_append, Linked] at h ⊢
    exact ⟨h.1, Linked_push t p c hl (b :: r) h.2⟩

theorem Shape_nil (t : SparseMerkleTree) : Shape t [] := by
  simp [Shape, Linked]

theorem Shape_below (t : SparseMerkleTree) (rest : List iteratorState) (f : iteratorState)
    (h : Shape t (rest ++ [f])) : Shape t rest := by
  obtain ⟨h1, h2, h3⟩ := h
  refine ⟨?_, fun g hg => h2 g (by simp [hg]), Linked_below t f rest h3⟩
  intro g hg
  cases rest with
  | nil => simp at hg
  | cons a r => exact h1 g (by simpa using hg)

theorem Shape_top (t : SparseMerkleTree) (rest : List iteratorState) (f g : iteratorState)
    (h : Shape t (rest ++ [f])) (hh : g.hash = f.hash) (hr : g.rawNode = f.rawNode)
    (hv : g.rightVisited = true → g.leftVisited = true) : Shape t (rest ++ [g]) := by
  obtain ⟨h1, h2, h3⟩ := h
  refine ⟨?_, ?_, Linked_top t f g hh rest h3⟩
  · intro x hx
    cases rest with
    | nil =>
      simp only [List.nil_append, List.head?_cons, Option.some.injEq] at hx
      subst hx
      rw [hh]; exact h1 f (by simp)
    | cons a r => exact h1 x (by simpa using hx)
  · intro x hx
    rcases List.mem_append.1 hx with hx | hx
    · exact h2 x (by simp [hx])
    · rw [List.mem_singleton.1 hx, hh, hr]
      exact ⟨(h2 f (by simp)).1, hv⟩

theorem Shape_push (t : SparseMerkleTree) (rest : List iteratorState) (p c : iteratorState)
    (h : Shape t (rest ++ [p])) (hl : ChainLink t p c)
    (hg : t.nodes c.hash = .ok c.rawNode)
    (hv : c.rightVisited = true → c.leftVisited = true) : Shape t (rest ++ [p] ++ [c]) := by
  obtain ⟨h1, h2, h3⟩ := h
  refine ⟨?_, ?_, Linked_push t p c hl rest h3⟩
  · intro x hx
    apply h1 x
    cases rest with
    | nil => simpa using hx
    | cons a r => simpa using hx
  · intro x hx
    rcases List.mem_append.1 hx with hx | hx
    · exact h2 x hx
    · rw [List.mem_singleton.1 hx]; exact ⟨hg, hv⟩

/-- What `nextChild` leaves behind on a frame whose `rightVisited` is set only
after `leftVisited`: the flags stay in that order, and a frame handed out for
pushing is fresh, holds the stored blob of a non-zero child, and is linked to
the updated parent. -/
theorem nextChild_link (t : SparseMerkleTree) (f : iteratorState)
    (hv : f.rightVisited = true → f.leftVisited = true) :
    ((nextChild t f).parent.rightVisited = true → (nextChild t f).parent.leftVisited = true) ∧
    ∀ c, (nextChild t f).out = .ok (c, false) →
      ChainLink t (nextChild t f).parent c ∧ t.nodes c.hash = .ok c.rawNode ∧
      c.leftVisited = false ∧ c.rightVisited = false := by
  obtain ⟨hash, raw, lv, rv⟩ := f
  simp only at hv
  unfold nextChild nextChildRight ChainLink
  cases hleaf : t.th.isLeaf raw <;> cases lv <;> cases rv <;>
    by_cases hzl : t.th.zeroValue = (t.th.parseNode raw).1 <;>
    cases hgl : t.nodes (t.th.parseNode raw).1 <;>
    by_cases hzr : t.th.zeroValue = (t.th.parseNode raw).2 <;>
    cases hgr : t.nodes (t.th.parseNode raw).2 <;>
    simp_all <;>
    first
      | exact fun e => hzl e.symm
      | exact fun e => hzr e.symm

theorem forLoop_shape (t : SparseMerkleTree) (stack : List iteratorState)
    (h : Shape t stack) :
    ∀ fuel, Shape t (forLoop t fuel stack).1 ∧
      ∀ c, (forLoop t fuel stack).2 = .ok c →
        Shape t ((forLoop t fuel stack).1 ++ [c]) ∧
        c.leftVisited = false ∧ c.rightVisited = false := by
  induction stack using List.reverseRecOn with
  | nil => intro fuel; simp [forLoop_nil, Shape_nil]
  | append_singleton rest f ih =>
    intro fuel
    cases fuel with
    | zero => exact ⟨by simpa [forLoop] using h, by simp [forLoop]⟩
    | succ k =>
      obtain ⟨hflag, hchild⟩ := nextChild_link t f (h.2.1 f (by simp)).2
      have htop : Shape t (rest ++ [(nextChild t f).parent]) :=
        Shape_top t rest f _ h (nextChild_parent t f).1 (nextChild_parent t f).2 hflag
      rw [forLoop_concat]
      rcases hout : (nextChild t f).out with e | ⟨c, b⟩
      · exact ⟨htop, by simp⟩
      · cases b
        · refine ⟨htop, ?_⟩
          intro c1 hc1
          simp only [Bool.not_false, if_true, Except.ok.injEq] at hc1
          subst hc1
          obtain ⟨hl, hg, hcl, hcr⟩ := hchild c hout
          exact ⟨Shape_push t rest _ c htop hl hg (by simp [hcr]), hcl, hcr⟩
        · simpa using ih (Shape_below t rest f h) k

/-- One call of `Next` keeps the stack well shaped, and a call that returns
true leaves a fresh frame on top. -/
theorem Next_shape (t : SparseMerkleTree) (i : iterator) (h : Shape t i.stack) :
    Shape t (Next t i).2.stack ∧
    ((Next t i).1 = true → ∃ f, (Next t i).2.stack.getLast? = some f ∧
      f.leftVisited = false ∧ f.rightVisited = false) := by
  unfold Next
  cases herr : i.err with
  | some e => exact ⟨by simpa using h, by simp⟩
  | none =>
    by_cases hs : i.stack = []
    · rcases hroot : t.nodes t.root with e | raw
      · simp [next, hs, init, hroot, Shape_nil]
      · simp [next, hs, init, hroot, push, Shape, Linked]
    · have hlen : i.stack.length ≠ 0 := by simpa using hs
      have hl := forLoop_shape t i.stack h i.stack.length
      simp only [next, hlen, if_false, Bool.not_true, Bool.false_eq_true]
      rcases hres : forLoop t i.stack.length i.stack with ⟨s1, e | node⟩
      · rw [hres] at hl
        exact ⟨by simpa using hl.1, by simp⟩
      · rw [hres] at hl
        obtain ⟨hsh, hlv, hrv⟩ := hl.2 node rfl
        exact ⟨by simpa [push] using hsh, fun _ => ⟨node, by simp [push], hlv, hrv⟩⟩

theorem NextN_shape (t : SparseMerkleTree) :
    ∀ (n : Nat) (i : iterator), Shape t i.stack → Shape t (NextN t n i).stack := by
  intro n
  induction n with
  | zero => intro i h; simpa [NextN] using h
  | succ n ih => intro i h; exact ih _ (Next_shape t i h).1

theorem Linked_get (t : SparseMerkleTree) :
    ∀ (stack : List iteratorState) (k : Nat) (p c : iteratorState), Linked t stack →
      stack[k]? = some p → stack[k + 1]? = some c → ChainLink t p c
  | [], _, _, _, _, hp, _ => by simp at hp
  | [_], _, _, _, _, _, hc => by simp at hc
  | a :: b :: r, 0, p, c, h, hp, hc => by
    simp only [List.getElem?_cons_zero, Option.some.injEq, List.getElem?_cons_succ] at hp hc
    subst hp; subst hc
    exact h.1
  | a :: b :: r, k + 1, p, c, h, hp, hc => by
    simp only [List.getElem?_cons_succ] at hp hc
    exact Linked_get t (b :: r) k p c h.2 (by simpa using hp) (by simpa using hc)

/-- C16: the stack-shape invariant holds after every number of `Next()` calls
on a fresh iterator, over any node store.  The bottom frame's hash is the
root; every frame's `rawNode` is the stored blob of its hash; every frame
below another (`stack[k]` with `stack[k+1]` present) is an inner node with
`leftVisited` set, whose successor's hash is its left child while
`rightVisited` is unset and its right child once it is set, so only the top
frame can be a leaf; and a `Next()` that returns true leaves a top frame with
both flags unset. -/
theorem stack_shape_invariant (t : SparseMerkleTree) (n : Nat) :
    Shape t (NextN t n fresh).stack ∧
    (∀ f, (NextN t n fresh).stack.head? = some f → f.hash = t.root) ∧
    (∀ f ∈ (NextN t n fresh).stack, t.nodes f.hash = .ok f.rawNode) ∧
    (∀ k p c, (NextN t n fresh).stack[k]? = some p →
      (NextN t n fresh).stack[k + 1]? = some c →
      t.th.isLeaf p.rawNode = false ∧ p.leftVisited = true ∧
      (p.rightVisited = false → c.hash = (t.th.parseNode p.rawNode).1) ∧
      (p.rightVisited = true → c.hash = (t.th.parseNode p.rawNode).2)) ∧
    ((Next t (NextN t n fresh)).1 = true →
      ∃ f, (Next t (NextN t n fresh)).2.stack.getLast? = some f ∧
        f.leftVisited = false ∧ f.rightVisited = false) := by
  have h : Shape t (NextN t n fresh).stack := NextN_shape t n fresh (Shape_nil t)
  refine ⟨h, h.1, fun f hf => (h.2.1 f hf).1, ?_, (Next_shape t _ h).2⟩
  intro k p c hp hc
  obtain ⟨h1, h2, _, h4, h5⟩ := Linked_get t _ k p c h.2.2 hp hc
  exact ⟨h1, h2, h4, h5⟩

/-! ## Stack depth -/

/-- A linked chain of stored frames that starts at the top node of a
well-formed tree follows a downward path of that tree, so it is no longer
than the tree is high. -/
theorem chain_le_height (t : SparseMerkleTree) :
    ∀ tr : Tree, WellFormed t tr → ∀ (c : iteratorState) (cs : List iteratorState),
      tr.raw? = some c.rawNode → Linked t (c :: cs) →
      (∀ f ∈ cs, t.nodes f.hash = .ok f.rawNode) → (c :: cs).length ≤ tr.height := by
  intro tr
  induction tr with
  | empty => intro _ c cs h; simp [Tree.raw?] at h
  | leaf raw =>
    intro hwf c cs hraw hl _
    simp only [Tree.raw?, Option.some.injEq] at hraw
    cases cs with
    | nil => simp [Tree.height]
    | cons c1 cs1 =>
      have := hl.1.1
      rw [← hraw] at this
      simp [WellFormed] at hwf
      rw [hwf] at this
      exact absurd this (by simp)
  | inner raw l r ihl ihr =>
    intro hwf c cs hraw hl hget
    simp only [Tree.raw?, Option.some.injEq] at hraw
    obtain ⟨_, hll, hlr, wl, wr⟩ := hwf
    cases cs with
    | nil => simp [Tree.height]
    | cons c1 cs1 =>
      obtain ⟨⟨_, _, hnz, hleft, hright⟩, hrest⟩ := hl
      have hg1 := hget c1 (by simp)
      have hget1 : ∀ f ∈ cs1, t.nodes f.hash = .ok f.rawNode :=
        fun f hf => hget f (by simp [hf])
      rw [← hraw] at hleft hright
      have sub : ∀ (s : Tree) (ref : Bytes), Link t s ref → c1.hash = ref →
          s.raw? = some c1.rawNode := by
        intro s ref hlink href
        unfold Link at hlink
        cases hs : s.raw? with
        | none =>
          rw [hs] at hlink
          exact absurd (href.trans hlink) hnz
        | some rs =>
          rw [hs] at hlink
          rw [← href, hg1] at hlink
          simpa using hlink.2.symm
      cases hrv : c.rightVisited with
      | false =>
        have := ihl wl c1 cs1 (sub l _ hll (hleft hrv)) hrest hget1
        simp only [List.length_cons, Tree.height] at this ⊢
        omega
      | true =>
        have := ihr wr c1 cs1 (sub r _ hlr (hright hrv)) hrest hget1
        simp only [List.length_cons, Tree.height] at this ⊢
        omega

/-- C15: over a well-formed tree stored under the root, after any number of
`Next()` calls on a fresh iterator the stack holds no more frames than the
tree is high in nodes, whatever the number of nodes; so with every node at
depth at most `d` the stack holds at most `d + 1` frames. -/
theorem stack_le_height (t : SparseMerkleTree) (tr : Tree) (h : StoredUnderRoot t tr)
    (n : Nat) :
    (NextN t n fresh).stack.length ≤ tr.height ∧
    ∀ d, tr.height ≤ d + 1 → (NextN t n fresh).stack.length ≤ d + 1 := by
  have key : (NextN t n fresh).stack.length ≤ tr.height := by
    obtain ⟨hwf, raw, hraw, hroot⟩ := h
    obtain ⟨h1, h2, h3⟩ := NextN_shape t n fresh (Shape_nil t)
    cases hs : (NextN t n fresh).stack with
    | nil => simp
    | cons c cs =>
      rw [hs] at h1 h2 h3
      have hc := (h2 c (by simp)).1
      rw [h1 c rfl, hroot] at hc
      have hcr : tr.raw? = some c.rawNode := by
        rw [hraw]; simpa using hc
      exact chain_le_height t tr hwf c cs hcr h3 (fun f hf => (h2 f (by simp [hf])).1)
  exact ⟨key, fun d hd => le_trans key hd⟩

/-- Witness of C15: the sample tree has four nodes and height three; after four
calls the stack holds three frames and it never holds more. -/
theorem stack_le_height_witness :
    StoredUnderRoot sampleTrie sampleTree ∧ sampleTree.height = 3 ∧
    (NextN sampleTrie 4 fresh).stack.length = 3 ∧
    (NextN sampleTrie 4 fresh).stack.length ≤ sampleTree.height ∧
    (NextN sampleTrie 3 fresh).stack.length ≤ 2 + 1 :=
  ⟨sample_stored, by decide, by decide,
   (stack_le_height sampleTrie sampleTree sample_stored 4).1,
   (stack_le_height sampleTrie sampleTree sample_stored 3).2 2 (by decide)⟩

/-! ## Accessors -/

/-- The pop loop reports the end of the iteration only with the stack emptied. -/
theorem forLoop_end_empty (t : SparseMerkleTree) (stack : List iteratorState) :
    ∀ s, forLoop t stack.length stack = (s, .error .ErrIteratorEnd) → s = [] := by
  induction stack using List.reverseRecOn with
  | nil => intro s h; simp [forLoop_nil] at h; exact h
  | append_singleton rest f ih =>
    intro s h
    rw [List.length_append, List.length_singleton, forLoop_concat] at h
    rcases hout : (nextChild t f).out with e | ⟨c, b⟩
    · rw [hout] at h
      have := nextChild_error t f e hout
      subst this
      simp at h
    · rw [hout] at h
      cases b
      · simp at h
      · exact ih s (by simpa using h)

theorem Next_end_empty (t : SparseMerkleTree) (i : iterator) (herr : i.err = none)
    (h : (Next t i).2.err = some .ErrIteratorEnd) : (Next t i).2.stack = [] := by
  unfold Next at h ⊢
  simp only [herr] at h ⊢
  by_cases hs : i.stack = []
  · rcases hroot : t.nodes t.root with e | raw
    · simp [next, hs, init, hroot]
    · simp [next, hs, init, hroot] at h
  · have hlen : i.stack.length ≠ 0 := by simpa using hs
    simp only [next, hlen, if_false, Bool.not_true, Bool.false_eq_true] at h ⊢
    rcases hres : forLoop t i.stack.length i.stack with ⟨s1, e | node⟩
    · rw [hres] at h
      simp only [Option.some.injEq] at h
      subst h
      simpa using forLoop_end_empty t i.stack s1 hres
    · rw [hres] at h
      simp at h

theorem NextN_end_empty (t : SparseMerkleTree) :
    ∀ n, (NextN t n fresh).err = some .ErrIteratorEnd → (NextN t n fresh).stack = [] := by
  have gen : ∀ (n : Nat) (i : iterator),
      (i.err = some .ErrIteratorEnd → i.stack = []) →
      (NextN t n i).err = some .ErrIteratorEnd → (NextN t n i).stack = [] := by
    intro n
    induction n with
    | zero => intro i hi h; exact hi h
    | succ n ih =>
      intro i hi h
      refine ih (Next t i).2 ?_ h
      intro he
      cases herr : i.err with
      | some e =>
        have := Next_of_err t i e herr
        rw [this] at he ⊢
        exact hi he
      | none => exact Next_end_empty t i herr he
  intro n
  exact gen n fresh (by simp [fresh])

/-- C17: accessor safety.  Whenever a call of `Next()` returns true the stack
is non-empty afterwards and its top is the frame that call pushed, so
`NodeBlob()`, `Leaf()`, `LeafKey()` and `LeafValue()` index within bounds and
describe that node.  On a fresh iterator, and after a call of `Next()` that
ended with `ErrIteratorEnd`, the stack is empty and the index
`stack[len-1]` of the accessors is out of range. -/
theorem accessor_safety (t : SparseMerkleTree) (i : iterator) :
    ((Next t i).1 = true →
      ∃ s node, next t true i.stack = (s, .ok node) ∧ (Next t i).2.stack = s ++ [node] ∧
        NodeBlob (Next t i).2 = some node.rawNode ∧
        Leaf t (Next t i).2 = some (t.th.isLeaf node.rawNode) ∧
        LeafKey t (Next t i).2 = some (t.th.parseLeaf node.rawNode).1 ∧
        LeafValue t (Next t i).2 = some (t.values (t.th.parseLeaf node.rawNode).1)) ∧
    (fresh.stack = [] ∧ NodeBlob fresh = none ∧ Leaf t fresh = none ∧
      LeafKey t fresh = none ∧ LeafValue t fresh = none) ∧
    (i.err = none → (Next t i).2.err = some .ErrIteratorEnd →
      (Next t i).2.stack = [] ∧ NodeBlob (Next t i).2 = none ∧ Leaf t (Next t i).2 = none ∧
      LeafKey t (Next t i).2 = none ∧ LeafValue t (Next t i).2 = none) ∧
    (∀ n, (NextN t n fresh).err = some .ErrIteratorEnd →
      (NextN t n fresh).stack = [] ∧ NodeBlob (NextN t n fresh) = none) := by
  refine ⟨?_, by simp [fresh, NodeBlob, Leaf, LeafKey, LeafValue], ?_, ?_⟩
  · intro h
    unfold Next at h ⊢
    cases herr : i.err with
    | some e => simp [herr] at h
    | none =>
      simp only [herr] at h ⊢
      rcases hn : next t true i.stack with ⟨s, e | node⟩
      · simp [hn] at h
      · exact ⟨s, node, rfl, by simp [push], by simp [NodeBlob, push],
          by simp [Leaf, push], by simp [LeafKey, push], by simp [LeafValue, push]⟩
  · intro herr h
    have := Next_end_empty t i herr h
    simp [this, NodeBlob, Leaf, LeafKey, LeafValue]
  · intro n h
    have := NextN_end_empty t n h
    simp [this, NodeBlob]

/-- Witness of C17 on the sample tree: the first call pushes the root frame,
which the accessors then describe; the fifth call ends the iteration and
leaves nothing to index. -/
theorem accessor_safety_witness :
    NodeBlob (Next sampleTrie fresh).2 = some [1, 3, 4] ∧
    Leaf sampleTrie (Next sampleTrie fresh).2 = some false ∧
    (Next sampleTrie (NextN sampleTrie 4 fresh)).2.stack = [] ∧
    NodeBlob (Next sampleTrie (NextN sampleTrie 4 fresh)).2 = none :=
  ⟨by
     obtain ⟨s, node, hn, _, hb, _⟩ := (accessor_safety sampleTrie fresh).1 (by decide)
     have : node = ⟨[9], [1, 3, 4], false, false⟩ := by
       have h2 : next sampleTrie true fresh.stack =
           ([], .ok ⟨[9], [1, 3, 4], false, false⟩) := by decide
       rw [h2] at hn
       simp only [Prod.mk.injEq, Except.ok.injEq] at hn
       exact hn.2.symm
     rw [hb, this],
   by decide,
   ((accessor_safety sampleTrie (NextN sampleTrie 4 fresh)).2.2.1
      (by decide) (by decide)).1,
   ((accessor_safety sampleTrie (NextN sampleTrie 4 fresh)).2.2.1
      (by decide) (by decide)).2.1⟩

/-! ## Traversal up to a missing node -/

theorem takeWhile_map_some_append (l : List Bytes) (m : List (Option Bytes)) :
    (l.map some ++ m).takeWhile Option.isSome = l.map some ++ m.takeWhile Option.isSome := by
  induction l with
  | nil => simp
  | cons a l ih => simp [List.takeWhile, ih]

theorem takeWhile_append_of_none (l m : List (Option Bytes)) (h : none ∈ l) :
    (l ++ m).takeWhile Option.isSome = l.takeWhile Option.isSome := by
  induction l with
  | nil => simp at h
  | cons a l ih =>
    cases a with
    | none => simp [List.takeWhile]
    | some b =>
      have : none ∈ l := by simpa using h
      simp [List.takeWhile, ih this]

/-- The recursive `before` agrees with the marked pre-order listing: its blobs
are the listing up to the first mark, and its flag says whether there is one. -/
theorem PTree.before_marked (tr : PTree) :
    tr.before.1.map some = tr.marked.takeWhile Option.isSome ∧
    (tr.before.2 = true ↔ none ∈ tr.marked) ∧
    (tr.before.2 = false → tr.marked = tr.before.1.map some) := by
  induction tr with
  | empty => simp [PTree.before, PTree.marked]
  | missing => simp [PTree.before, PTree.marked, List.takeWhile]
  | leaf raw => simp [PTree.before, PTree.marked, List.takeWhile]
  | inner raw l r ihl ihr =>
    obtain ⟨l1, l2, l3⟩ := ihl
    obtain ⟨r1, r2, r3⟩ := ihr
    cases hb : l.before.2 with
    | true =>
      have hm : none ∈ l.marked := l2.1 hb
      simp [PTree.before, PTree.marked, hb, List.takeWhile, takeWhile_append_of_none _ _ hm,
        ← l1, hm]
    | false =>
      have hl := l3 hb
      have hn : none ∉ l.marked := fun h => by
        have := l2.2 h
        rw [hb] at this
        exact absurd this (by simp)
      refine ⟨?_, ?_, ?_⟩
      · simp [PTree.before, PTree.marked, hb, List.takeWhile, hl,
          takeWhile_map_some_append, ← r1]
      · simp [PTree.before, PTree.marked, hb, r2, hn]
      · intro h
        simp only [PTree.before, hb, Bool.false_eq_true, if_false] at h
        simp [PTree.before, PTree.marked, hb, hl, r3 h]

theorem PTree.before_of_raw (tr : PTree) (raw : Bytes) (h : tr.raw? = some raw) :
    ∃ tl, tr.before.1 = raw :: tl := by
  cases tr with
  | empty => simp [PTree.raw?] at h
  | missing => simp [PTree.raw?] at h
  | leaf r => simp [PTree.raw?] at h; simp [PTree.before, h]
  | inner r a b =>
    simp [PTree.raw?] at h
    cases hb : a.before.2 <;> simp [PTree.before, hb, h]

theorem LinkP_of_raw (t : SparseMerkleTree) (tr : PTree) (ref raw : Bytes)
    (h : LinkP t tr ref) (hraw : tr.raw? = some raw) :
    ¬ t.th.zeroValue = ref ∧ t.nodes ref = .ok raw := by
  cases tr with
  | empty => simp [PTree.raw?] at hraw
  | missing => simp [PTree.raw?] at hraw
  | leaf r =>
    simp only [PTree.raw?, Option.some.injEq] at hraw
    subst hraw
    exact ⟨fun e => h.1 e.symm, h.2⟩
  | inner r a b =>
    simp only [PTree.raw?, Option.some.injEq] at hraw
    subst hraw
    exact ⟨fun e => h.1 e.symm, h.2⟩

/-- The right-hand phase of an inner frame: with the left side dealt with and
finished frames `done` above the frame `g`, the following steps deal with
the right child slot. -/
theorem slot_right (t : SparseMerkleTree) (hash raw0 : Bytes) (rest done : List iteratorState)
    (g : iteratorState) (tr : PTree) (hleaf : t.th.isLeaf raw0 = false)
    (hg : nextChild t g = nextChildRight t (t.th.parseNode raw0).2 ⟨hash, raw0, true, false⟩)
    (hd : ∀ f ∈ done, Done t f) (hlink : LinkP t tr (t.th.parseNode raw0).2)
    (ih : Visits t tr) :
    SlotRun t rest { stack := rest ++ [g] ++ done, err := none } tr := by
  have node : ∀ rr, tr.raw? = some rr →
      SlotRun t rest { stack := rest ++ [g] ++ done, err := none } tr := by
    intro rr hrr
    obtain ⟨hz, hget⟩ := LinkP_of_raw t tr _ rr hlink hrr
    have step := Next_push t rest done g ⟨hash, raw0, true, true⟩
      ⟨(t.th.parseNode raw0).2, rr, false, false⟩ hd
      (by rw [hg]; simp [nextChildRight, hz, hget])
    obtain ⟨lr, last, sr, hb, hfail, hcomp⟩ :=
      ih rr hrr (t.th.parseNode raw0).2 (rest ++ [⟨hash, raw0, true, true⟩])
    refine ⟨_, last, Steps.cons step sr, ?_, hfail, ?_⟩
    · rw [← hb]; simp [NodeBlob]
    · intro hfalse
      obtain ⟨doneR, hlast, _, hdR⟩ := hcomp hfalse
      refine ⟨⟨hash, raw0, true, true⟩ :: doneR, by simp [hlast], by simp, ?_⟩
      intro f hf
      rcases List.mem_cons.1 hf with rfl | hf
      · exact ⟨_, by simp [nextChild, nextChildRight, hleaf]; rfl⟩
      · exact hdR f hf
  cases tr with
  | empty =>
    have hz : t.th.zeroValue = (t.th.parseNode raw0).2 := by
      simp only [LinkP] at hlink
      exact hlink.symm
    refine ⟨[], _, Steps.nil _, by simp [PTree.before], by simp [PTree.before], ?_⟩
    intro _
    refine ⟨[g] ++ done, by simp, by simp, ?_⟩
    intro f hf
    rcases List.mem_append.1 hf with hf | hf
    · rw [List.mem_singleton.1 hf]
      exact ⟨_, by rw [hg]; simp [nextChildRight, ← hz]; rfl⟩
    · exact hd f hf
  | missing =>
    obtain ⟨hnz, e, hget⟩ := hlink
    have hz : ¬ t.th.zeroValue = (t.th.parseNode raw0).2 := fun h => hnz h.symm
    have hfail := Next_fail t rest done g ⟨hash, raw0, true, false⟩ .ErrNodeNotFound hd
      (by rw [hg]; simp [nextChildRight, hz, hget])
    exact ⟨[], _, Steps.nil _, by simp [PTree.before], fun _ => ⟨_, hfail⟩,
      by simp [PTree.before]⟩
  | leaf rr => exact node rr rfl
  | inner rr a b => exact node rr rfl

/-- The traversal of a stored node of a well-formed partial tree shows the
blobs before its first missing node; it then fails with `ErrNodeNotFound`
if there is one and leaves finished frames otherwise. -/
theorem visits_all (t : SparseMerkleTree) : ∀ tr : PTree, WellFormedP t tr → Visits t tr := by
  intro tr
  induction tr with
  | empty => intro _ raw h; simp [PTree.raw?] at h
  | missing => intro _ raw h; simp [PTree.raw?] at h
  | leaf raw0 =>
    intro hwf raw h hash rest
    simp only [PTree.raw?, Option.some.injEq] at h
    subst h
    refine ⟨[], _, Steps.nil _, by simp [PTree.before], by simp [PTree.before], ?_⟩
    intro _
    refine ⟨[⟨hash, raw0, false, false⟩], rfl, by simp, ?_⟩
    intro f hf
    rw [List.mem_singleton.1 hf]
    exact Done_leaf t _ hwf
  | inner raw0 tl tr ihl ihr =>
    intro hwf raw h hash rest
    simp only [PTree.raw?, Option.some.injEq] at h
    subst h
    obtain ⟨hleaf, hl, hr, wl, wr⟩ := hwf
    have node : ∀ rl, tl.raw? = some rl →
        ∃ l last, Steps t { stack := rest ++ [⟨hash, raw0, false, false⟩], err := none } l last ∧
          some raw0 :: l.map NodeBlob = (PTree.inner raw0 tl tr).before.1.map some ∧
          ((PTree.inner raw0 tl tr).before.2 = true →
            ∃ stk, Next t last = (false, { stack := stk, err := some .ErrNodeNotFound })) ∧
          ((PTree.inner raw0 tl tr).before.2 = false →
            ∃ done, last = { stack := rest ++ done, err := none } ∧
              done ≠ [] ∧ ∀ f ∈ done, Done t f) := by
      intro rl hrl
      obtain ⟨hz, hget⟩ := LinkP_of_raw t tl _ rl hl hrl
      have step1 := Next_push t rest [] ⟨hash, raw0, false, false⟩ ⟨hash, raw0, true, false⟩
        ⟨(t.th.parseNode raw0).1, rl, false, false⟩ (by simp)
        (by simp [nextChild, hleaf, hz, hget])
      simp only [List.append_nil] at step1
      obtain ⟨ll, lastl, sl, hbl, hfail, hcomp⟩ :=
        ihl wl rl hrl (t.th.parseNode raw0).1 (rest ++ [⟨hash, raw0, true, false⟩])
      cases hb : tl.before.2 with
      | true =>
        refine ⟨_, lastl, Steps.cons step1 sl, ?_, fun _ => hfail hb, ?_⟩
        · simp [PTree.before, hb, NodeBlob, ← hbl]
        · simp [PTree.before, hb]
      | false =>
        obtain ⟨doneL, hlast, _, hdL⟩ := hcomp hb
        subst hlast
        obtain ⟨lr, last, sr, hbr, hfailr, hcompr⟩ :=
          slot_right t hash raw0 rest doneL ⟨hash, raw0, true, false⟩ tr hleaf
            (by simp [nextChild, hleaf]) hdL hr (ihr wr)
        refine ⟨_, last, Steps.append (Steps.cons step1 sl) sr, ?_, ?_, ?_⟩
        · simp [PTree.before, hb, NodeBlob, ← hbl, hbr]
        · intro h
          exact hfailr (by simpa [PTree.before, hb] using h)
        · intro h
          exact hcompr (by simpa [PTree.before, hb] using h)
    cases tl with
    | empty =>
      have hz : t.th.zeroValue = (t.th.parseNode raw0).1 := by
        simp only [LinkP] at hl
        exact hl.symm
      obtain ⟨lr, last, sr, hbr, hfailr, hcompr⟩ :=
        slot_right t hash raw0 rest [] ⟨hash, raw0, false, false⟩ tr hleaf
          (by simp [nextChild, hleaf, ← hz]) (by simp) hr (ihr wr)
      simp only [List.append_nil] at sr
      refine ⟨lr, last, sr, ?_, ?_, ?_⟩
      · simp [PTree.before, hbr]
      · intro h
        exact hfailr (by simpa [PTree.before] using h)
      · intro h
        exact hcompr (by simpa [PTree.before] using h)
    | missing =>
      obtain ⟨hnz, e, hget⟩ := hl
      have hz : ¬ t.th.zeroValue = (t.th.parseNode raw0).1 := fun h => hnz h.symm
      have hfail := Next_fail t rest [] ⟨hash, raw0, false, false⟩ ⟨hash, raw0, false, false⟩
        .ErrNodeNotFound (by simp) (by simp [nextChild, hleaf, hz, hget])
      simp only [List.append_nil] at hfail
      exact ⟨[], _, Steps.nil _, by simp [PTree.before], fun _ => ⟨_, hfail⟩,
        by simp [PTree.before]⟩
    | leaf rl => exact node rl rfl
    | inner rl a b => exact node rl rfl

theorem partial_run (t : SparseMerkleTree) (tr : PTree) (h : StoredUnderRootP t tr)
    (hm : tr.before.2 = true) :
    ∃ l last stk, Steps t fresh l last ∧ l.map NodeBlob = tr.before.1.map some ∧
      l.length = tr.before.1.length ∧
      Next t last = (false, { stack := stk, err := some .ErrNodeNotFound }) := by
  obtain ⟨hwf, raw, hraw, hroot⟩ := h
  obtain ⟨l, last, st, hb, hfail, _⟩ := visits_all t tr hwf raw hraw t.root []
  obtain ⟨stk, hstk⟩ := hfail hm
  have h0 : Next t fresh = (true, { stack := [⟨t.root, raw, false, false⟩], err := none }) := by
    simp [Next, next, fresh, init, hroot, push]
  simp only [List.nil_append] at st
  have hmap : (({ stack := [⟨t.root, raw, false, false⟩], err := none } : iterator) :: l).map
      NodeBlob = tr.before.1.map some := by
    rw [← hb]; simp [NodeBlob]
  refine ⟨_, last, stk, Steps.cons h0 st, hmap, ?_, hstk⟩
  simpa using congrArg List.length hmap

/-- C18: over a tree stored under the root in which some non-zero child
reference (not the root) has no entry in the node store, the calls of
`Next()` return true exactly for the nodes that precede the first missing
node in pre-order and show them in that order; the next call returns false
and stores `ErrNodeNotFound`, which stays the terminal condition ever after,
so no node behind the missing one is yielded. -/
theorem missing_node_stops_traversal (t : SparseMerkleTree) (tr : PTree)
    (h : StoredUnderRootP t tr) (hm : none ∈ tr.marked) (k : Nat) :
    (visited t (tr.before.1.length + 1 + k) fresh).map NodeBlob =
      tr.marked.takeWhile Option.isSome ∧
    tr.before.1.map some = tr.marked.takeWhile Option.isSome ∧
    flags t (tr.before.1.length + 1 + k) fresh =
      List.replicate tr.before.1.length true ++ List.replicate (1 + k) false ∧
    (NextN t (tr.before.1.length + 1 + k) fresh).err = some .ErrNodeNotFound := by
  obtain ⟨hb1, hb2, _⟩ := tr.before_marked
  obtain ⟨l, last, stk, st, hb, hlen, hend⟩ := partial_run t tr h (hb2.2 hm)
  have herr := NextN_of_err t { stack := stk, err := some .ErrNodeNotFound } .ErrNodeNotFound rfl k
  refine ⟨?_, hb1, ?_, ?_⟩
  · have hv := st.visited_eq (1 + k)
    rw [hlen, ← Nat.add_assoc] at hv
    rw [hv, visited_of_false t last _ (by rw [hend]), List.append_nil, hb, hb1]
  · have hf := st.flags_eq (1 + k)
    rw [hlen, ← Nat.add_assoc] at hf
    rw [hf, Nat.add_comm 1 k]
    simp [flags, hend, herr.2, List.replicate_succ]
  · have hn := st.NextN_eq (1 + k)
    rw [hlen, ← Nat.add_assoc] at hn
    rw [hn, Nat.add_comm 1 k]
    simp [NextN, hend, herr.1]

theorem half_stored : StoredUnderRootP halfTrie halfTree := by
  simp [StoredUnderRootP, WellFormedP, LinkP, PTree.raw?, halfTree, halfTrie, sampleHasher,
    mapGet, List.lookup]

/-- Witness of C18: the root and its left leaf are shown, then the missing
right child stops the traversal with `ErrNodeNotFound`. -/
theorem missing_node_stops_traversal_witness :
    StoredUnderRootP halfTrie halfTree ∧ none ∈ halfTree.marked ∧
    (visited halfTrie 5 fresh).map NodeBlob = [some [1, 3, 4], some [0, 5, 6]] ∧
    flags halfTrie 5 fresh = [true, true, false, false, false] ∧
    (NextN halfTrie 5 fresh).err = some .ErrNodeNotFound :=
  ⟨half_stored, by decide,
   (missing_node_stops_traversal halfTrie halfTree half_stored (by decide) 2).1,
   (missing_node_stops_traversal halfTrie halfTree half_stored (by decide) 2).2.2.1,
   (missing_node_stops_traversal halfTrie halfTree half_stored (by decide) 2).2.2.2⟩

end smt
